import Mathlib

/-!
Verification of the retention engine of `prune.py` (rtsp_record).

The development shallowly embeds the program:
* a calendar-date model mirroring CPython `datetime.date` (proleptic
  Gregorian ordinals, ISO calendar computation used by `strftime('%G-%V')`);
* the period-key strings produced by `ts.strftime(pattern)` for the four
  `PRUNING_PATTERNS` rules;
* `scan_directories`, `prune_split`, `choose_kept` and the validation
  performed by `main` before scanning.

Machine integers are modelled by `Int`/`Nat`; sets and dicts by lists with
membership and association-list lookup.
-/

namespace RtspRecord

/-- A calendar date, as the (year, month, day) triple held by a Python
`datetime.date` object. -/
structure Date where
  year : Nat
  month : Nat
  day : Nat
deriving DecidableEq, Repr

/-- Gregorian leap-year test, as CPython `datetime._is_leap`. -/
def isLeapYear (y : Nat) : Bool :=
  (y % 4 == 0 && y % 100 != 0) || y % 400 == 0

/-- Number of days in a month, as CPython `datetime._days_in_month`. -/
def monthLen (y : Nat) (m : Nat) : Nat :=
  match m with
  | 1 => 31
  | 2 => if isLeapYear y then 29 else 28
  | 3 => 31
  | 4 => 30
  | 5 => 31
  | 6 => 30
  | 7 => 31
  | 8 => 31
  | 9 => 30
  | 10 => 31
  | 11 => 30
  | 12 => 31
  | _ => 0

/-- Days in year `y` before the first of month `m`, as CPython
`datetime._days_before_month` (cumulative month lengths). -/
def daysBeforeMonth (y : Nat) (m : Nat) : Nat :=
  match m with
  | 1 => 0
  | 2 => 31
  | 3 => if isLeapYear y then 60 else 59
  | 4 => if isLeapYear y then 91 else 90
  | 5 => if isLeapYear y then 121 else 120
  | 6 => if isLeapYear y then 152 else 151
  | 7 => if isLeapYear y then 182 else 181
  | 8 => if isLeapYear y then 213 else 212
  | 9 => if isLeapYear y then 244 else 243
  | 10 => if isLeapYear y then 274 else 273
  | 11 => if isLeapYear y then 305 else 304
  | 12 => if isLeapYear y then 335 else 334
  | _ => 0

/-- Number of days before January 1st of year `y`, as CPython
`datetime._days_before_year`. -/
def daysBeforeYear (y : Nat) : Nat :=
  365 * (y - 1) + (y - 1) / 4 - (y - 1) / 100 + (y - 1) / 400

/-- Number of days in year `y`. -/
def daysInYear (y : Nat) : Nat :=
  if isLeapYear y then 366 else 365

/-- Proleptic Gregorian ordinal of a date (day 1 is 0001-01-01), as CPython
`datetime._ymd2ord`. -/
def toOrdinal (d : Date) : Nat :=
  daysBeforeYear d.year + daysBeforeMonth d.year d.month + d.day

/-- The date triples representable by a Python `datetime.date`
(`MINYEAR = 1`, `MAXYEAR = 9999`, month and day in calendar range). -/
def ValidDate (d : Date) : Prop :=
  1 ≤ d.year ∧ d.year ≤ 9999 ∧ 1 ≤ d.month ∧ d.month ≤ 12 ∧
    1 ≤ d.day ∧ d.day ≤ monthLen d.year d.month

instance (d : Date) : Decidable (ValidDate d) := by
  unfold ValidDate; infer_instance

/-- Python `date` comparison: lexicographic on the (year, month, day)
triple. -/
def Date.le (a b : Date) : Prop :=
  a.year < b.year ∨ (a.year = b.year ∧
    (a.month < b.month ∨ (a.month = b.month ∧ a.day ≤ b.day)))

/-- Strict version of `Date.le`. -/
def Date.lt (a b : Date) : Prop :=
  a.year < b.year ∨ (a.year = b.year ∧
    (a.month < b.month ∨ (a.month = b.month ∧ a.day < b.day)))

instance (a b : Date) : Decidable (Date.le a b) := by
  unfold Date.le; infer_instance

instance (a b : Date) : Decidable (Date.lt a b) := by
  unfold Date.lt; infer_instance

theorem Date.le_refl (a : Date) : Date.le a a := by
  unfold Date.le; omega

theorem Date.le_total (a b : Date) : Date.le a b ∨ Date.le b a := by
  unfold Date.le; omega

theorem Date.not_le (a b : Date) : ¬ Date.le a b → Date.lt b a := by
  unfold Date.le Date.lt; omega

theorem isLeapYear_iff (y : Nat) :
    isLeapYear y = true ↔ ((y % 4 = 0 ∧ ¬ y % 100 = 0) ∨ y % 400 = 0) := by
  simp [isLeapYear, Bool.or_eq_true, Bool.and_eq_true, beq_iff_eq,
    bne_iff_ne, Ne]

theorem daysInYear_bounds (y : Nat) :
    365 ≤ daysInYear y ∧ daysInYear y ≤ 366 := by
  unfold daysInYear; split <;> omega

theorem daysInYear_leap {y : Nat} (h : isLeapYear y = true) :
    daysInYear y = 366 := by
  simp [daysInYear, h]

theorem daysInYear_not_leap {y : Nat} (h : isLeapYear y = false) :
    daysInYear y = 365 := by
  simp [daysInYear, h]

set_option maxHeartbeats 1000000 in
theorem daysBeforeYear_succ (y : Nat) (hy : 1 ≤ y) :
    daysBeforeYear (y + 1) = daysBeforeYear y + daysInYear y := by
  cases h : isLeapYear y with
  | true =>
    rw [daysInYear_leap h]
    rw [isLeapYear_iff] at h
    unfold daysBeforeYear
    omega
  | false =>
    rw [daysInYear_not_leap h]
    have h2 : ¬ ((y % 4 = 0 ∧ ¬ y % 100 = 0) ∨ y % 400 = 0) := by
      rw [← isLeapYear_iff, h]; simp
    unfold daysBeforeYear
    omega

theorem daysBeforeYear_mono {a b : Nat} (h : a ≤ b) :
    daysBeforeYear a ≤ daysBeforeYear b := by
  induction b with
  | zero =>
    have : a = 0 := by omega
    simp [this]
  | succ n ih =>
    rcases Nat.lt_or_ge n 1 with hn | hn
    · have hn0 : n = 0 := by omega
      subst hn0
      rcases Nat.le_one_iff_eq_zero_or_eq_one.mp h with h0 | h1
      · simp [h0, daysBeforeYear]
      · simp [h1]
    · rcases Nat.lt_or_ge a (n + 1) with h1 | h2
      · have := ih (by omega)
        rw [daysBeforeYear_succ n hn]
        omega
      · have : a = n + 1 := by omega
        simp [this]

theorem daysBeforeMonth_add_len_le (y : Nat) {m m' : Nat} (hm : 1 ≤ m)
    (hmm : m < m') (hm' : m' ≤ 12) :
    daysBeforeMonth y m + monthLen y m ≤ daysBeforeMonth y m' := by
  have hm12 : m ≤ 11 := by omega
  cases hl : isLeapYear y <;>
    (interval_cases m <;> interval_cases m' <;>
      simp [daysBeforeMonth, monthLen, hl])

theorem daysBeforeMonth_add_len_le_year (y : Nat) {m : Nat} (hm : 1 ≤ m)
    (hm' : m ≤ 12) :
    daysBeforeMonth y m + monthLen y m ≤ daysInYear y := by
  cases hl : isLeapYear y <;>
    (interval_cases m <;> simp [daysBeforeMonth, monthLen, daysInYear, hl])

theorem toOrdinal_lower {d : Date} (hv : ValidDate d) :
    daysBeforeYear d.year + 1 ≤ toOrdinal d := by
  obtain ⟨h1, h2, h3, h4, h5, h6⟩ := hv
  unfold toOrdinal
  omega

theorem toOrdinal_upper {d : Date} (hv : ValidDate d) :
    toOrdinal d ≤ daysBeforeYear d.year + daysInYear d.year := by
  obtain ⟨h1, h2, h3, h4, h5, h6⟩ := hv
  have := daysBeforeMonth_add_len_le_year d.year h3 h4
  unfold toOrdinal
  omega

theorem toOrdinal_jan1 (y : Nat) :
    toOrdinal ⟨y, 1, 1⟩ = daysBeforeYear y + 1 := by
  simp [toOrdinal, daysBeforeMonth]

/-- `toOrdinal` respects the Python date order on valid dates. -/
theorem toOrdinal_le_of_le {a b : Date} (ha : ValidDate a) (hb : ValidDate b)
    (h : Date.le a b) : toOrdinal a ≤ toOrdinal b := by
  obtain ⟨ha1, ha2, ha3, ha4, ha5, ha6⟩ := ha
  obtain ⟨hb1, hb2, hb3, hb4, hb5, hb6⟩ := hb
  rcases h with h | ⟨hy, h⟩
  · -- strictly earlier year
    have h1 : toOrdinal a ≤ daysBeforeYear a.year + daysInYear a.year :=
      toOrdinal_upper ⟨ha1, ha2, ha3, ha4, ha5, ha6⟩
    have h2 : daysBeforeYear (a.year + 1) = daysBeforeYear a.year + daysInYear a.year :=
      daysBeforeYear_succ a.year ha1
    have h3 : daysBeforeYear (a.year + 1) ≤ daysBeforeYear b.year :=
      daysBeforeYear_mono h
    have h4 : daysBeforeYear b.year + 1 ≤ toOrdinal b :=
      toOrdinal_lower ⟨hb1, hb2, hb3, hb4, hb5, hb6⟩
    omega
  · rcases h with h | ⟨hm, h⟩
    · -- same year, strictly earlier month
      have h1 : daysBeforeMonth a.year a.month + monthLen a.year a.month ≤
          daysBeforeMonth a.year b.month := daysBeforeMonth_add_len_le a.year ha3 h hb4
      unfold toOrdinal
      rw [hy] at h1 ha6 ⊢
      omega
    · -- same year and month
      unfold toOrdinal
      rw [hy, hm]
      omega

/-- Ordinal of the Monday starting week 1 of ISO year `y`, as CPython
`datetime._isoweek1monday` (`firstweekday = (firstday + 6) % 7` is the
Monday-based weekday of January 1st; `THURSDAY = 3`). -/
def isoweek1monday (y : Nat) : Nat :=
  if 3 < (toOrdinal ⟨y, 1, 1⟩ + 6) % 7 then
    toOrdinal ⟨y, 1, 1⟩ - (toOrdinal ⟨y, 1, 1⟩ + 6) % 7 + 7
  else
    toOrdinal ⟨y, 1, 1⟩ - (toOrdinal ⟨y, 1, 1⟩ + 6) % 7

/-- The ISO (year, week) pair of a date, as CPython `date.isocalendar`
(the source of `strftime('%G-%V')`).  CPython computes
`week, day = divmod(today - week1monday, 7)` with floored division, so
`week < 0` is exactly `today < week1monday`; inside each branch the
differences are non-negative, so `Nat` subtraction agrees with Python. -/
def isoYearWeek (d : Date) : Nat × Nat :=
  if toOrdinal d < isoweek1monday d.year then
    (d.year - 1, (toOrdinal d - isoweek1monday (d.year - 1)) / 7 + 1)
  else if 52 ≤ (toOrdinal d - isoweek1monday d.year) / 7 ∧
      isoweek1monday (d.year + 1) ≤ toOrdinal d then
    (d.year + 1, 1)
  else
    (d.year, (toOrdinal d - isoweek1monday d.year) / 7 + 1)

/-- Ordinal of the Monday of the 7-day Monday-aligned block containing
ordinal `o` (ordinal 1, 0001-01-01, is a Monday). -/
def mondayOf (o : Nat) : Nat := o - (o - 1) % 7

theorem isoweek1monday_spec (y : Nat) (hy : 1 ≤ y) :
    daysBeforeYear y + 1 ≤ isoweek1monday y + 3 ∧
    isoweek1monday y ≤ daysBeforeYear y + 4 ∧
    isoweek1monday y % 7 = 1 ∧ 1 ≤ isoweek1monday y := by
  unfold isoweek1monday
  rw [toOrdinal_jan1]
  split <;> omega

theorem isoweek1monday_lt_succ (y : Nat) (hy : 1 ≤ y) :
    isoweek1monday y < isoweek1monday (y + 1) := by
  have s1 := isoweek1monday_spec y hy
  have s2 := isoweek1monday_spec (y + 1) (by omega)
  have hs := daysBeforeYear_succ y hy
  have hb := daysInYear_bounds y
  omega

theorem isoweek1monday_mono {a b : Nat} (ha : 1 ≤ a) (h : a ≤ b) :
    isoweek1monday a ≤ isoweek1monday b := by
  induction b with
  | zero => omega
  | succ n ih =>
    rcases Nat.lt_or_ge a (n + 1) with h1 | h2
    · have hle := ih (by omega)
      have := isoweek1monday_lt_succ n (by omega)
      omega
    · have : a = n + 1 := by omega
      simp [this]

/-- Characterization of `isoYearWeek`: the result is determined by the
Monday starting the date's week — the ISO year is the unique year whose
week-1 Monday window contains it, and the week is its 1-based index. -/
theorem isoYearWeek_spec (d : Date) (hv : ValidDate d) :
    1 ≤ (isoYearWeek d).1 ∧ (isoYearWeek d).1 ≤ 9999 ∧
    isoweek1monday (isoYearWeek d).1 ≤ mondayOf (toOrdinal d) ∧
    mondayOf (toOrdinal d) < isoweek1monday ((isoYearWeek d).1 + 1) ∧
    (isoYearWeek d).2 =
      (mondayOf (toOrdinal d) - isoweek1monday (isoYearWeek d).1) / 7 + 1 := by
  have hy1 : 1 ≤ d.year := hv.1
  have hy2 : d.year ≤ 9999 := hv.2.1
  have hlo : daysBeforeYear d.year + 1 ≤ toOrdinal d := toOrdinal_lower hv
  have hhi : toOrdinal d ≤ daysBeforeYear d.year + daysInYear d.year :=
    toOrdinal_upper hv
  have hsucc : daysBeforeYear (d.year + 1) =
      daysBeforeYear d.year + daysInYear d.year := daysBeforeYear_succ _ hy1
  have hdy := daysInYear_bounds d.year
  unfold isoYearWeek
  split_ifs with hc1 hc2
  · -- first branch: previous ISO year
    have hy2' : 2 ≤ d.year := by
      by_contra hcon
      have hy1' : d.year = 1 := by omega
      have hw1 : isoweek1monday 1 = 1 := by decide
      have hb1 : daysBeforeYear 1 = 0 := by decide
      rw [hy1'] at hc1 hlo
      rw [hw1] at hc1
      rw [hb1] at hlo
      omega
    have hyy : d.year - 1 + 1 = d.year := by omega
    have sA := isoweek1monday_spec (d.year - 1) (by omega)
    have sB := isoweek1monday_spec d.year hy1
    have hsucc' : daysBeforeYear (d.year - 1 + 1) =
        daysBeforeYear (d.year - 1) + daysInYear (d.year - 1) :=
      daysBeforeYear_succ _ (by omega)
    rw [hyy] at hsucc'
    have hdy' := daysInYear_bounds (d.year - 1)
    dsimp only
    rw [hyy]
    unfold mondayOf
    omega
  · -- second branch: next ISO year
    have hy3 : d.year ≤ 9998 := by
      by_contra hcon
      have hy9 : d.year = 9999 := by omega
      have cw : isoweek1monday (9999 + 1) = 3652062 := by decide
      have cd : daysBeforeYear 9999 + daysInYear 9999 = 3652059 := by decide
      rw [hy9] at hc2 hhi
      rw [cw] at hc2
      rw [cd] at hhi
      omega
    have sB := isoweek1monday_spec d.year hy1
    have sC := isoweek1monday_spec (d.year + 1) (by omega)
    have sD := isoweek1monday_spec (d.year + 1 + 1) (by omega)
    have hsucc2 : daysBeforeYear (d.year + 1 + 1) =
        daysBeforeYear (d.year + 1) + daysInYear (d.year + 1) :=
      daysBeforeYear_succ _ (by omega)
    have hdy2 := daysInYear_bounds (d.year + 1)
    dsimp only
    unfold mondayOf
    omega
  · -- third branch: current ISO year
    have sB := isoweek1monday_spec d.year hy1
    have sC := isoweek1monday_spec (d.year + 1) (by omega)
    dsimp only
    unfold mondayOf
    omega

theorem isoYearWeek_snd_bounds (d : Date) (hv : ValidDate d) :
    1 ≤ (isoYearWeek d).2 ∧ (isoYearWeek d).2 ≤ 54 := by
  have hch := isoYearWeek_spec d hv
  have s1 := isoweek1monday_spec (isoYearWeek d).1 hch.1
  have s2 := isoweek1monday_spec ((isoYearWeek d).1 + 1) (by omega)
  have hs := daysBeforeYear_succ (isoYearWeek d).1 hch.1
  have hb := daysInYear_bounds (isoYearWeek d).1
  omega

/-- Two valid dates have the same ISO (year, week) pair exactly when they
lie in the same Monday-aligned 7-day block of ordinals. -/
theorem isoYearWeek_eq_iff_block (d1 d2 : Date) (h1 : ValidDate d1)
    (h2 : ValidDate d2) :
    isoYearWeek d1 = isoYearWeek d2 ↔
      (toOrdinal d1 - 1) / 7 = (toOrdinal d2 - 1) / 7 := by
  have c1 := isoYearWeek_spec d1 h1
  have c2 := isoYearWeek_spec d2 h2
  have lo1 : 1 ≤ toOrdinal d1 := by
    have := toOrdinal_lower h1; omega
  have lo2 : 1 ≤ toOrdinal d2 := by
    have := toOrdinal_lower h2; omega
  constructor
  · intro he
    rw [he] at c1
    have s := isoweek1monday_spec (isoYearWeek d2).1 c2.1
    unfold mondayOf at c1 c2
    omega
  · intro hb
    have hm : mondayOf (toOrdinal d1) = mondayOf (toOrdinal d2) := by
      unfold mondayOf; omega
    rcases Nat.lt_trichotomy (isoYearWeek d1).1 (isoYearWeek d2).1 with
      hlt | heq | hgt
    · exfalso
      have hmono : isoweek1monday ((isoYearWeek d1).1 + 1) ≤
          isoweek1monday (isoYearWeek d2).1 :=
        isoweek1monday_mono (by omega) (by omega)
      omega
    · have s := isoweek1monday_spec (isoYearWeek d2).1 c2.1
      have hw : (isoYearWeek d1).2 = (isoYearWeek d2).2 := by
        rw [heq] at c1
        omega
      exact Prod.ext heq hw
    · exfalso
      have hmono : isoweek1monday ((isoYearWeek d2).1 + 1) ≤
          isoweek1monday (isoYearWeek d1).1 :=
        isoweek1monday_mono (by omega) (by omega)
      omega

/-- ISO-week buckets are convex with respect to date order: a date lying
between two dates of the same ISO week is in that ISO week. -/
theorem isoYearWeek_convex {d1 d2 d3 : Date} (h1 : ValidDate d1)
    (h2 : ValidDate d2) (h3 : ValidDate d3)
    (h32 : Date.le d3 d2) (h21 : Date.le d2 d1)
    (he : isoYearWeek d1 = isoYearWeek d3) :
    isoYearWeek d2 = isoYearWeek d1 := by
  have o32 := toOrdinal_le_of_le h3 h2 h32
  have o21 := toOrdinal_le_of_le h2 h1 h21
  rw [isoYearWeek_eq_iff_block d1 d3 h1 h3] at he
  rw [isoYearWeek_eq_iff_block d2 d1 h2 h1]
  omega

/-! ### The period-key strings produced by `ts.strftime(pattern)` -/

/-- The ASCII digit character for `n < 10`. -/
def digitChar (n : Nat) : Char := Char.ofNat (48 + n)

/-- Two-digit zero-padded decimal rendering (used by `%m`, `%d`, `%V`;
all values formatted here are at most 99). -/
def pad2 (n : Nat) : List Char := [digitChar (n / 10), digitChar (n % 10)]

/-- Four-digit zero-padded decimal rendering (used by `%Y`, `%G`; all
years formatted here are at most 9999, the `datetime.MAXYEAR`). -/
def pad4 (n : Nat) : List Char :=
  [digitChar (n / 1000), digitChar (n / 100 % 10), digitChar (n / 10 % 10),
    digitChar (n % 10)]

/-- The four retention rules, in the fixed order of `PRUNING_PATTERNS`. -/
inductive Rule where
  | daily
  | weekly
  | monthly
  | yearly
deriving DecidableEq, Repr

/-- `ts.strftime(PRUNING_PATTERNS[rule])`: the period string grouping
dates, per rule (`%Y-%m-%d`, `%G-%V`, `%Y-%m`, `%Y`). -/
def periodKey : Rule → Date → String
  | .daily, d =>
    String.mk (pad4 d.year ++ '-' :: (pad2 d.month ++ '-' :: pad2 d.day))
  | .weekly, d =>
    String.mk (pad4 (isoYearWeek d).1 ++ '-' :: pad2 (isoYearWeek d).2)
  | .monthly, d => String.mk (pad4 d.year ++ '-' :: pad2 d.month)
  | .yearly, d => String.mk (pad4 d.year)

theorem digitChar_toNat : ∀ k < 10, (digitChar k).toNat = 48 + k := by
  decide

theorem pad2_inj {a b : Nat} (ha : a ≤ 99) (hb : b ≤ 99)
    (h : pad2 a = pad2 b) : a = b := by
  simp only [pad2, List.cons.injEq, and_true] at h
  obtain ⟨h1, h2⟩ := h
  have e1 : (digitChar (a / 10)).toNat = (digitChar (b / 10)).toNat := by
    rw [h1]
  have e2 : (digitChar (a % 10)).toNat = (digitChar (b % 10)).toNat := by
    rw [h2]
  rw [digitChar_toNat (a / 10) (by omega), digitChar_toNat (b / 10) (by omega)]
    at e1
  rw [digitChar_toNat (a % 10) (by omega), digitChar_toNat (b % 10) (by omega)]
    at e2
  omega

theorem pad4_inj {a b : Nat} (ha : a ≤ 9999) (hb : b ≤ 9999)
    (h : pad4 a = pad4 b) : a = b := by
  simp only [pad4, List.cons.injEq, and_true] at h
  obtain ⟨h1, h2, h3, h4⟩ := h
  have e1 : (digitChar (a / 1000)).toNat = (digitChar (b / 1000)).toNat := by
    rw [h1]
  have e2 : (digitChar (a / 100 % 10)).toNat =
      (digitChar (b / 100 % 10)).toNat := by rw [h2]
  have e3 : (digitChar (a / 10 % 10)).toNat =
      (digitChar (b / 10 % 10)).toNat := by rw [h3]
  have e4 : (digitChar (a % 10)).toNat = (digitChar (b % 10)).toNat := by
    rw [h4]
  rw [digitChar_toNat (a / 1000) (by omega),
    digitChar_toNat (b / 1000) (by omega)] at e1
  rw [digitChar_toNat (a / 100 % 10) (by omega),
    digitChar_toNat (b / 100 % 10) (by omega)] at e2
  rw [digitChar_toNat (a / 10 % 10) (by omega),
    digitChar_toNat (b / 10 % 10) (by omega)] at e3
  rw [digitChar_toNat (a % 10) (by omega),
    digitChar_toNat (b % 10) (by omega)] at e4
  omega

theorem pad4_length (n : Nat) : (pad4 n).length = 4 := by
  simp [pad4]

theorem pad2_length (n : Nat) : (pad2 n).length = 2 := by
  simp [pad2]

theorem monthLen_le (y m : Nat) : monthLen y m ≤ 31 := by
  unfold monthLen
  split <;> (try split) <;> omega

theorem periodKey_daily_iff {d1 d2 : Date} (h1 : ValidDate d1)
    (h2 : ValidDate d2) :
    periodKey .daily d1 = periodKey .daily d2 ↔
      (d1.year = d2.year ∧ d1.month = d2.month ∧ d1.day = d2.day) := by
  constructor
  · intro h
    simp only [periodKey, String.ext_iff] at h
    obtain ⟨hy, h⟩ := List.append_inj h rfl
    simp only [List.cons.injEq, true_and] at h
    obtain ⟨hm, h⟩ := List.append_inj h rfl
    simp only [List.cons.injEq, true_and] at h
    have hl1 := monthLen_le d1.year d1.month
    have hl2 := monthLen_le d2.year d2.month
    exact ⟨pad4_inj h1.2.1 h2.2.1 hy,
      pad2_inj (by have := h1.2.2.2.1; omega)
        (by have := h2.2.2.2.1; omega) hm,
      pad2_inj (by have := h1.2.2.2.2.2; omega)
        (by have := h2.2.2.2.2.2; omega) h⟩
  · intro ⟨hy, hm, hd⟩
    simp only [periodKey, hy, hm, hd]

theorem periodKey_monthly_iff {d1 d2 : Date} (h1 : ValidDate d1)
    (h2 : ValidDate d2) :
    periodKey .monthly d1 = periodKey .monthly d2 ↔
      (d1.year = d2.year ∧ d1.month = d2.month) := by
  constructor
  · intro h
    simp only [periodKey, String.ext_iff] at h
    obtain ⟨hy, h⟩ := List.append_inj h rfl
    simp only [List.cons.injEq, true_and] at h
    exact ⟨pad4_inj h1.2.1 h2.2.1 hy,
      pad2_inj (by have := h1.2.2.2.1; omega)
        (by have := h2.2.2.2.1; omega) h⟩
  · intro ⟨hy, hm⟩
    simp only [periodKey, hy, hm]

theorem periodKey_yearly_iff {d1 d2 : Date} (h1 : ValidDate d1)
    (h2 : ValidDate d2) :
    periodKey .yearly d1 = periodKey .yearly d2 ↔ d1.year = d2.year := by
  constructor
  · intro h
    simp only [periodKey, String.ext_iff] at h
    exact pad4_inj h1.2.1 h2.2.1 h
  · intro hy
    simp only [periodKey, hy]

set_option maxHeartbeats 1600000 in
theorem periodKey_weekly_iff {d1 d2 : Date} (h1 : ValidDate d1)
    (h2 : ValidDate d2) :
    periodKey .weekly d1 = periodKey .weekly d2 ↔
      isoYearWeek d1 = isoYearWeek d2 := by
  constructor
  · intro h
    simp only [periodKey, String.ext_iff] at h
    obtain ⟨hy, h⟩ := List.append_inj h rfl
    simp only [List.cons.injEq, true_and] at h
    have b1 : (isoYearWeek d1).1 ≤ 9999 := (isoYearWeek_spec d1 h1).2.1
    have b2 : (isoYearWeek d2).1 ≤ 9999 := (isoYearWeek_spec d2 h2).2.1
    have w1 : (isoYearWeek d1).2 ≤ 99 := by
      have := isoYearWeek_snd_bounds d1 h1; omega
    have w2 : (isoYearWeek d2).2 ≤ 99 := by
      have := isoYearWeek_snd_bounds d2 h2; omega
    exact Prod.ext (pad4_inj b1 b2 hy) (pad2_inj w1 w2 h)
  · intro he
    simp only [periodKey, he]

/-- Period buckets are convex with respect to the date order: for every
rule, a date lying between two dates with equal period keys has that same
period key. -/
theorem periodKey_convex {r : Rule} {d1 d2 d3 : Date} (h1 : ValidDate d1)
    (h2 : ValidDate d2) (h3 : ValidDate d3)
    (h32 : Date.le d3 d2) (h21 : Date.le d2 d1)
    (he : periodKey r d1 = periodKey r d3) :
    periodKey r d2 = periodKey r d1 := by
  cases r with
  | daily =>
    rw [periodKey_daily_iff h1 h3] at he
    rw [periodKey_daily_iff h2 h1]
    unfold Date.le at h32 h21
    omega
  | weekly =>
    rw [periodKey_weekly_iff h1 h3] at he
    rw [periodKey_weekly_iff h2 h1]
    exact isoYearWeek_convex h1 h2 h3 h32 h21 he
  | monthly =>
    rw [periodKey_monthly_iff h1 h3] at he
    rw [periodKey_monthly_iff h2 h1]
    unfold Date.le at h32 h21
    omega
  | yearly =>
    rw [periodKey_yearly_iff h1 h3] at he
    rw [periodKey_yearly_iff h2 h1]
    unfold Date.le at h32 h21
    omega

/-! ### The retention engine (`prune_split`, `choose_kept`) -/

/-- One element of the scanned list: the `(date, path, name)` triple of
`DirEntry`, with the path identified by the directory name. -/
structure Entry where
  date : Date
  name : String
deriving DecidableEq, Repr

/-- The mutable state threaded through `prune_split`: the `kept` set of
names (a Python `set`, modelled by a duplicate-free list) and the
`kept_because` dict mapping a name to its `(rule, counter)` reason
(modelled by an association list, most recent binding first). -/
structure PruneState where
  kept : List String
  because : List (String × Rule × Int)
deriving DecidableEq, Repr

/-- The loop of `prune_split`: walk the items, keeping the first
not-yet-kept entry of every new period until `counter == n`.
`last_period` starts as `None`; it is updated whenever the current
period differs from it (when they are equal it is left alone, which is
the same thing). -/
def pruneSplitGo (rule : Rule) (n : Int) :
    List Entry → Option String → Int → PruneState → PruneState
  | [], _, _, st => st
  | e :: rest, lastPeriod, counter, st =>
    if lastPeriod = some (periodKey rule e.date) then
      pruneSplitGo rule n rest lastPeriod counter st
    else if e.name ∈ st.kept then
      pruneSplitGo rule n rest (some (periodKey rule e.date)) counter st
    else if counter + 1 = n then
      ⟨e.name :: st.kept, (e.name, rule, counter + 1) :: st.because⟩
    else
      pruneSplitGo rule n rest (some (periodKey rule e.date)) (counter + 1)
        ⟨e.name :: st.kept, (e.name, rule, counter + 1) :: st.because⟩

/-- `prune_split(items, rule, n, kept, kept_because)`: returns the
updated state instead of mutating. -/
def prune_split (items : List Entry) (rule : Rule) (n : Int)
    (st : PruneState) : PruneState :=
  if n ≤ 0 then st else pruneSplitGo rule n items none 0 st

/-- The four keep-counts parsed from the command line (`args.daily`,
`args.weekly`, `args.monthly`, `args.yearly`; Python ints). -/
structure Config where
  daily : Int
  weekly : Int
  monthly : Int
  yearly : Int
deriving DecidableEq, Repr

/-- `getattr(args, rule)`. -/
def Config.get : Config → Rule → Int
  | c, .daily => c.daily
  | c, .weekly => c.weekly
  | c, .monthly => c.monthly
  | c, .yearly => c.yearly

/-- The iteration order of `PRUNING_PATTERNS` (an `OrderedDict`). -/
def ruleOrder : List Rule := [.daily, .weekly, .monthly, .yearly]

/-- `choose_kept(items, args)`: run `prune_split` for each rule in the
fixed order, starting from an empty kept set and reason dict. -/
def choose_kept (items : List Entry) (cfg : Config) : PruneState :=
  ruleOrder.foldl (fun st r => prune_split items r (cfg.get r) st) ⟨[], []⟩

/-- The state of `choose_kept` after the first `k` rules have run. -/
def chooseKeptUpTo (items : List Entry) (cfg : Config) (k : Nat) :
    PruneState :=
  (ruleOrder.take k).foldl (fun st r => prune_split items r (cfg.get r) st)
    ⟨[], []⟩

theorem choose_kept_eq (items : List Entry) (cfg : Config) :
    choose_kept items cfg =
      prune_split items .yearly (cfg.get .yearly)
        (prune_split items .monthly (cfg.get .monthly)
          (prune_split items .weekly (cfg.get .weekly)
            (prune_split items .daily (cfg.get .daily) ⟨[], []⟩))) := rfl

/-! ### Association-list helpers -/

theorem lookup_append_of_not_mem {β : Type} {nm : String}
    {l1 l2 : List (String × β)} (h : nm ∉ l1.map Prod.fst) :
    List.lookup nm (l1 ++ l2) = List.lookup nm l2 := by
  induction l1 with
  | nil => rfl
  | cons a t ih =>
    simp only [List.map_cons, List.mem_cons, not_or] at h
    obtain ⟨h1, h2⟩ := h
    have hb : (nm == a.1) = false := by
      simp [h1]
    simp [List.lookup, hb, ih h2]

theorem lookup_mem {β : Type} {nm : String} {v : β}
    {l : List (String × β)} (h : List.lookup nm l = some v) : (nm, v) ∈ l := by
  induction l with
  | nil => simp [List.lookup] at h
  | cons a t ih =>
    obtain ⟨k, w⟩ := a
    by_cases hb : nm = k
    · have hbt : (nm == k) = true := by simp [hb]
      rw [List.lookup, hbt] at h
      simp only [Option.some.injEq] at h
      subst hb
      subst h
      exact List.mem_cons_self _ _
    · have hbf : (nm == k) = false := by simp [hb]
      rw [List.lookup, hbf] at h
      exact List.Mem.tail _ (ih h)

theorem lookup_isSome_of_mem_keys {β : Type} {nm : String}
    {l : List (String × β)} (h : nm ∈ l.map Prod.fst) :
    ∃ v, List.lookup nm l = some v ∧ (nm, v) ∈ l := by
  induction l with
  | nil => simp at h
  | cons a t ih =>
    obtain ⟨k, w⟩ := a
    by_cases hb : nm = k
    · refine ⟨w, ?_, ?_⟩
      · have hbt : (nm == k) = true := by simp [hb]
        rw [List.lookup, hbt]
      · subst hb
        exact List.mem_cons_self _ _
    · simp only [List.map_cons, List.mem_cons, hb, false_or] at h
      obtain ⟨v, hv, hm⟩ := ih h
      refine ⟨v, ?_, .tail _ hm⟩
      have hbf : (nm == k) = false := by simp [hb]
      rw [List.lookup, hbf]
      exact hv

theorem mem_keys_of_lookup {β : Type} {nm : String} {v : β}
    {l : List (String × β)} (h : List.lookup nm l = some v) :
    nm ∈ l.map Prod.fst := by
  have := lookup_mem h
  exact List.mem_map.mpr ⟨(nm, v), this, rfl⟩

/-! ### Structure of a single `prune_split` pass -/

/-- Master description of one pass: it prepends some list `A` of new
bindings (given here in evaluation order, most recent last) to both the
kept set and the reason dict; the bindings carry this rule and counter
values `c+1, c+2, ...`; the pass never passes `n` keeps; the new names
form (in evaluation order) a sublist of the walked names; and they are
pairwise distinct and fresh. -/
theorem pruneSplitGo_spec (r : Rule) (n : Int) :
    ∀ (rest : List Entry) (lp : Option String) (c : Int) (st : PruneState),
      ∃ A : List (String × Rule × Int),
        pruneSplitGo r n rest lp c st =
          ⟨A.reverse.map Prod.fst ++ st.kept, A.reverse ++ st.because⟩ ∧
        A.map (fun b => b.2) =
          (List.range A.length).map (fun i : Nat => (r, c + 1 + (i : Int))) ∧
        (c < n → c + (A.length : Int) ≤ n) ∧
        List.Sublist (A.map Prod.fst) (rest.map Entry.name) ∧
        (∀ x ∈ A.map Prod.fst, x ∉ st.kept) ∧
        (A.map Prod.fst).Nodup := by
  intro rest
  induction rest with
  | nil =>
    intro lp c st
    refine ⟨[], ?_, by simp, ?_, by simp, by simp, by simp⟩
    · simp [pruneSplitGo]
    · intro h
      simp only [List.length_nil, Nat.cast_zero]
      omega
  | cons e rest ih =>
    intro lp c st
    by_cases hlp : lp = some (periodKey r e.date)
    · obtain ⟨A, h1, h2, h3, h4, h5, h6⟩ := ih lp c st
      refine ⟨A, ?_, h2, h3, h4.trans (List.sublist_cons_self _ _), h5, h6⟩
      rw [pruneSplitGo, if_pos hlp]
      exact h1
    · by_cases hk : e.name ∈ st.kept
      · obtain ⟨A, h1, h2, h3, h4, h5, h6⟩ := ih (some (periodKey r e.date)) c st
        refine ⟨A, ?_, h2, h3, h4.trans (List.sublist_cons_self _ _), h5, h6⟩
        rw [pruneSplitGo, if_neg hlp, if_pos hk]
        exact h1
      · by_cases hstop : c + 1 = n
        · refine ⟨[(e.name, r, c + 1)], ?_, ?_, by intro _; simp; omega,
            ?_, ?_, by simp⟩
          · rw [pruneSplitGo, if_neg hlp, if_neg hk, if_pos hstop]
            simp
          · have hr1 : List.range [(e.name, r, c + 1)].length = [0] := rfl
            rw [hr1]
            simp
          · simpa using List.cons_sublist_cons.mpr (List.nil_sublist _)
          · intro x hx
            simp at hx
            rw [hx]
            exact hk
        · obtain ⟨A, h1, h2, h3, h4, h5, h6⟩ :=
            ih (some (periodKey r e.date)) (c + 1)
              ⟨e.name :: st.kept, (e.name, r, c + 1) :: st.because⟩
          refine ⟨(e.name, r, c + 1) :: A, ?_, ?_, ?_, ?_, ?_, ?_⟩
          · rw [pruneSplitGo, if_neg hlp, if_neg hk, if_neg hstop, h1]
            simp
          · rw [List.map_cons, List.length_cons, List.range_succ_eq_map,
              List.map_cons, List.map_map, h2]
            congr 1
            · simp
            · apply List.map_congr_left
              intro i hi
              simp only [Function.comp_apply, Prod.mk.injEq, true_and]
              push_cast
              ring
          · intro hcn
            rcases Int.lt_or_le (c + 1) n with hlt | hle
            · have := h3 hlt
              simp only [List.length_cons]
              push_cast
              omega
            · omega
          · exact List.cons_sublist_cons.mpr h4
          · intro x hx
            simp only [List.map_cons, List.mem_cons] at hx
            rcases hx with hx | hx
            · rw [hx]; exact hk
            · intro hmem
              exact h5 x hx (by simp [hmem])
          · simp only [List.map_cons, List.nodup_cons]
            refine ⟨fun hmem => h5 _ hmem (by simp), h6⟩

/-- Structure of `prune_split` itself: counters start at 1 and the pass
keeps at most `max n 0` entries; a non-positive `n` keeps nothing. -/
theorem prune_split_spec (items : List Entry) (r : Rule) (n : Int)
    (st : PruneState) :
    ∃ A : List (String × Rule × Int),
      prune_split items r n st =
        ⟨A.reverse.map Prod.fst ++ st.kept, A.reverse ++ st.because⟩ ∧
      A.map (fun b => b.2) =
        (List.range A.length).map (fun i : Nat => (r, 1 + (i : Int))) ∧
      (A.length : Int) ≤ max n 0 ∧
      List.Sublist (A.map Prod.fst) (items.map Entry.name) ∧
      (∀ x ∈ A.map Prod.fst, x ∉ st.kept) ∧
      (A.map Prod.fst).Nodup := by
  unfold prune_split
  split_ifs with hn
  · refine ⟨[], by simp, by simp, by simp, by simp, by simp, by simp⟩
  · obtain ⟨A, h1, h2, h3, h4, h5, h6⟩ := pruneSplitGo_spec r n items none 0 st
    refine ⟨A, h1, ?_, ?_, h4, h5, h6⟩
    · rw [h2]
      apply List.map_congr_left
      intro i hi
      simp
    · have := h3 (by omega)
      omega

/-- Names already kept are still kept after a pass. -/
theorem pruneSplitGo_kept_mono (r : Rule) (n : Int) (rest : List Entry)
    (lp : Option String) (c : Int) (st : PruneState) :
    ∀ x ∈ st.kept, x ∈ (pruneSplitGo r n rest lp c st).kept := by
  obtain ⟨A, h1, -, -, -, -, -⟩ := pruneSplitGo_spec r n rest lp c st
  rw [h1]
  intro x hx
  exact List.mem_append_right _ hx

theorem prune_split_kept_mono (items : List Entry) (r : Rule) (n : Int)
    (st : PruneState) : ∀ x ∈ st.kept, x ∈ (prune_split items r n st).kept := by
  obtain ⟨A, h1, -, -, -, -, -⟩ := prune_split_spec items r n st
  rw [h1]
  intro x hx
  exact List.mem_append_right _ hx

/-- Lifting a keep-site decomposition of `rest` (relative to the period of
`e` as last period) to `e :: rest` (relative to any last period). -/
theorem pruneSplitGo_site_lift {r : Rule} (e : Entry) {rest : List Entry}
    {nm : String} {lp : Option String}
    (h : ∃ l1 f l2, rest = l1 ++ f :: l2 ∧ f.name = nm ∧
        (l1 = [] →
          (some (periodKey r e.date) : Option String) ≠
            some (periodKey r f.date)) ∧
        (∀ l1' p, l1 = l1' ++ [p] →
          periodKey r p.date ≠ periodKey r f.date)) :
    ∃ l1 f l2, e :: rest = l1 ++ f :: l2 ∧ f.name = nm ∧
      (l1 = [] → lp ≠ some (periodKey r f.date)) ∧
      (∀ l1' p, l1 = l1' ++ [p] →
        periodKey r p.date ≠ periodKey r f.date) := by
  obtain ⟨l1, f, l2, hsplit, hname, hc1, hc2⟩ := h
  refine ⟨e :: l1, f, l2, by rw [hsplit, List.cons_append], hname, ?_, ?_⟩
  · intro hx
    exact absurd hx (by simp)
  · intro l1' p hp
    cases l1' with
    | nil =>
      simp only [List.nil_append, List.cons.injEq] at hp
      obtain ⟨hep, hl⟩ := hp
      rw [← hep]
      intro hq
      exact hc1 hl (by rw [hq])
    | cons a t =>
      simp only [List.cons_append, List.cons.injEq] at hp
      exact hc2 t p hp.2

/-- A name newly kept by a pass sits at a period-change site: the entry
right before it in the walked list (if any) has a different period key,
and if it is the very first entry the initial `last_period` differs. -/
theorem pruneSplitGo_site (r : Rule) (n : Int) :
    ∀ (rest : List Entry) (lp : Option String) (c : Int) (st : PruneState)
      (nm : String),
      nm ∈ (pruneSplitGo r n rest lp c st).kept →
      nm ∈ st.kept ∨
      ∃ l1 f l2, rest = l1 ++ f :: l2 ∧ f.name = nm ∧
        (l1 = [] → lp ≠ some (periodKey r f.date)) ∧
        (∀ l1' p, l1 = l1' ++ [p] →
          periodKey r p.date ≠ periodKey r f.date) := by
  intro rest
  induction rest with
  | nil =>
    intro lp c st nm h
    rw [pruneSplitGo] at h
    exact .inl h
  | cons e rest ih =>
    intro lp c st nm h
    by_cases hlp : lp = some (periodKey r e.date)
    · rw [pruneSplitGo, if_pos hlp] at h
      rcases ih lp c st nm h with hm | hsite
      · exact .inl hm
      · right
        apply pruneSplitGo_site_lift e
        rwa [hlp] at hsite
    · by_cases hk : e.name ∈ st.kept
      · rw [pruneSplitGo, if_neg hlp, if_pos hk] at h
        rcases ih _ c st nm h with hm | hsite
        · exact .inl hm
        · exact .inr (pruneSplitGo_site_lift e hsite)
      · by_cases hstop : c + 1 = n
        · rw [pruneSplitGo, if_neg hlp, if_neg hk, if_pos hstop] at h
          rcases List.mem_cons.mp h with h1 | h2
          · right
            refine ⟨[], e, rest, rfl, h1.symm, fun _ => hlp, ?_⟩
            intro l1' p hp
            exact absurd hp (by simp)
          · exact .inl h2
        · rw [pruneSplitGo, if_neg hlp, if_neg hk, if_neg hstop] at h
          rcases ih _ (c + 1) ⟨e.name :: st.kept,
              (e.name, r, c + 1) :: st.because⟩ nm h with hm | hsite
          · rcases List.mem_cons.mp hm with h1 | h2
            · right
              refine ⟨[], e, rest, rfl, h1.symm, fun _ => hlp, ?_⟩
              intro l1' p hp
              exact absurd hp (by simp)
            · exact .inl h2
          · exact .inr (pruneSplitGo_site_lift e hsite)

theorem prune_split_site (items : List Entry) (r : Rule) (n : Int)
    (st : PruneState) (nm : String)
    (h : nm ∈ (prune_split items r n st).kept) :
    nm ∈ st.kept ∨
    ∃ l1 f l2, items = l1 ++ f :: l2 ∧ f.name = nm ∧
      (∀ l1' p, l1 = l1' ++ [p] →
        periodKey r p.date ≠ periodKey r f.date) := by
  unfold prune_split at h
  split_ifs at h with hn
  · exact .inl h
  · rcases pruneSplitGo_site r n items none 0 st nm h with hm | hsite
    · exact .inl hm
    · obtain ⟨l1, f, l2, hs, hnm, -, hc2⟩ := hsite
      exact .inr ⟨l1, f, l2, hs, hnm, hc2⟩

/-- Monotonicity of one pass in the remaining quota and the kept set. -/
theorem pruneSplitGo_mono (r : Rule) (nOld nNew : Int) :
    ∀ (rest : List Entry) (lp : Option String) (cOld cNew : Int)
      (stOld stNew : PruneState),
      (∀ x ∈ stOld.kept, x ∈ stNew.kept) → cOld < nOld → cNew < nNew →
      nOld - cOld ≤ nNew - cNew →
      ∀ x ∈ (pruneSplitGo r nOld rest lp cOld stOld).kept,
        x ∈ (pruneSplitGo r nNew rest lp cNew stNew).kept := by
  intro rest
  induction rest with
  | nil =>
    intro lp cOld cNew stOld stNew hsub hcO hcN hq x hx
    rw [pruneSplitGo] at hx ⊢
    exact hsub x hx
  | cons e rest ih =>
    intro lp cOld cNew stOld stNew hsub hcO hcN hq x hx
    by_cases hlp : lp = some (periodKey r e.date)
    · rw [pruneSplitGo, if_pos hlp] at hx ⊢
      exact ih lp cOld cNew stOld stNew hsub hcO hcN hq x hx
    · by_cases hkO : e.name ∈ stOld.kept
      · have hkN : e.name ∈ stNew.kept := hsub _ hkO
        rw [pruneSplitGo, if_neg hlp, if_pos hkO] at hx
        rw [pruneSplitGo, if_neg hlp, if_pos hkN]
        exact ih _ cOld cNew stOld stNew hsub hcO hcN hq x hx
      · by_cases hkN : e.name ∈ stNew.kept
        · -- the new run already keeps this name (by an earlier rule)
          rw [pruneSplitGo, if_neg hlp, if_neg hkO] at hx
          rw [pruneSplitGo, if_neg hlp, if_pos hkN]
          by_cases hstopO : cOld + 1 = nOld
          · rw [if_pos hstopO] at hx
            rcases List.mem_cons.mp hx with h1 | h2
            · exact pruneSplitGo_kept_mono r nNew rest _ cNew stNew x
                (h1 ▸ hkN)
            · exact pruneSplitGo_kept_mono r nNew rest _ cNew stNew x
                (hsub x h2)
          · rw [if_neg hstopO] at hx
            refine ih _ (cOld + 1) cNew _ stNew ?_ (by omega) hcN (by omega)
              x hx
            intro y hy
            rcases List.mem_cons.mp hy with h1 | h2
            · exact h1 ▸ hkN
            · exact hsub y h2
        · -- both runs keep this name now
          rw [pruneSplitGo, if_neg hlp, if_neg hkO] at hx
          rw [pruneSplitGo, if_neg hlp, if_neg hkN]
          by_cases hstopN : cNew + 1 = nNew
          · rw [if_pos hstopN]
            have hstopO : cOld + 1 = nOld := by omega
            rw [if_pos hstopO] at hx
            rcases List.mem_cons.mp hx with h1 | h2
            · exact h1 ▸ List.mem_cons_self _ _
            · exact List.mem_cons_of_mem _ (hsub x h2)
          · rw [if_neg hstopN]
            by_cases hstopO : cOld + 1 = nOld
            · rw [if_pos hstopO] at hx
              refine pruneSplitGo_kept_mono r nNew rest _ (cNew + 1) _ x ?_
              rcases List.mem_cons.mp hx with h1 | h2
              · exact h1 ▸ List.mem_cons_self _ _
              · exact List.mem_cons_of_mem _ (hsub x h2)
            · rw [if_neg hstopO] at hx
              refine ih _ (cOld + 1) (cNew + 1) _ _ ?_ (by omega) (by omega)
                (by omega) x hx
              intro y hy
              rcases List.mem_cons.mp hy with h1 | h2
              · exact h1 ▸ List.mem_cons_self _ _
              · exact List.mem_cons_of_mem _ (hsub y h2)

/-- Monotonicity of `prune_split` in the keep-count and the kept set. -/
theorem prune_split_mono (items : List Entry) (r : Rule)
    {nOld nNew : Int} {stOld stNew : PruneState}
    (hsub : ∀ x ∈ stOld.kept, x ∈ stNew.kept) (hn : nOld ≤ nNew) :
    ∀ x ∈ (prune_split items r nOld stOld).kept,
      x ∈ (prune_split items r nNew stNew).kept := by
  unfold prune_split
  split_ifs with h1 h2 h2
  · exact hsub
  · intro x hx
    exact pruneSplitGo_kept_mono r nNew items none 0 stNew x (hsub x hx)
  · omega
  · exact pruneSplitGo_mono r nOld nNew items none 0 0 stOld stNew hsub
      (by omega) (by omega) (by omega)

/-! ### The entry catalog: `datetime.date.fromisoformat` and
`scan_directories` -/

/-- ASCII decimal digit test. -/
def isDig (c : Char) : Prop := 48 ≤ c.toNat ∧ c.toNat ≤ 57

instance (c : Char) : Decidable (isDig c) := by
  unfold isDig; infer_instance

/-- Numeric value of an ASCII digit character. -/
def digitVal (c : Char) : Nat := c.toNat - 48

/-- Character-level body of `date_fromisoformat`. -/
def parseIsoChars (cs : List Char) : Option Date :=
  match cs with
  | [y1, y2, y3, y4, s1, m1, m2, s2, d1, d2] =>
    if isDig y1 ∧ isDig y2 ∧ isDig y3 ∧ isDig y4 ∧ s1 = '-' ∧
        isDig m1 ∧ isDig m2 ∧ s2 = '-' ∧ isDig d1 ∧ isDig d2 then
      if 1 ≤ 1000 * digitVal y1 + 100 * digitVal y2 + 10 * digitVal y3 +
            digitVal y4 ∧
          1000 * digitVal y1 + 100 * digitVal y2 + 10 * digitVal y3 +
            digitVal y4 ≤ 9999 ∧
          1 ≤ 10 * digitVal m1 + digitVal m2 ∧
          10 * digitVal m1 + digitVal m2 ≤ 12 ∧
          1 ≤ 10 * digitVal d1 + digitVal d2 ∧
          10 * digitVal d1 + digitVal d2 ≤
            monthLen
              (1000 * digitVal y1 + 100 * digitVal y2 + 10 * digitVal y3 +
                digitVal y4)
              (10 * digitVal m1 + digitVal m2) then
        some ⟨1000 * digitVal y1 + 100 * digitVal y2 + 10 * digitVal y3 +
            digitVal y4,
          10 * digitVal m1 + digitVal m2, 10 * digitVal d1 + digitVal d2⟩
      else none
    else none
  | _ => none

/-- `datetime.date.fromisoformat`, the strict `YYYY-MM-DD` parser used by
`scan_directories` (the C parser of the `datetime` module: exactly ten
characters, digits in the year/month/day positions, dashes between, then
`date(y, m, d)` range validation). Failure (Python `ValueError`) is
`none`. -/
def date_fromisoformat (s : String) : Option Date :=
  parseIsoChars s.data

/-- The canonical `YYYY-MM-DD` rendering of a date (what `str(date)`
produces, and the directory-name format of the spec). -/
def dateName (d : Date) : String :=
  String.mk (pad4 d.year ++ '-' :: (pad2 d.month ++ '-' :: pad2 d.day))

/-- Spec-side characterization: a name is a strict calendar date of the
form `YYYY-MM-DD`. -/
def strictDateFormat (s : String) : Prop :=
  ∃ d : Date, ValidDate d ∧ s = dateName d

theorem isDig_digitChar : ∀ k < 10, isDig (digitChar k) := by decide

theorem digitVal_digitChar : ∀ k < 10, digitVal (digitChar k) = k := by
  decide

theorem digitChar_digitVal {c : Char} (h : isDig c) :
    digitChar (digitVal c) = c := by
  obtain ⟨h1, h2⟩ := h
  unfold digitChar digitVal
  have he : 48 + (c.toNat - 48) = c.toNat := by omega
  rw [he]
  exact Char.ofNat_toNat c

theorem digitVal_le {c : Char} (h : isDig c) : digitVal c ≤ 9 := by
  obtain ⟨h1, h2⟩ := h
  unfold digitVal
  omega

/-- Parsing the canonical rendering of a valid date succeeds and returns
that date. -/
theorem date_fromisoformat_dateName {d : Date} (hv : ValidDate d) :
    date_fromisoformat (dateName d) = some d := by
  obtain ⟨h1, h2, h3, h4, h5, h6⟩ := hv
  have hml := monthLen_le d.year d.month
  have hdata : (dateName d).data =
      [digitChar (d.year / 1000), digitChar (d.year / 100 % 10),
        digitChar (d.year / 10 % 10), digitChar (d.year % 10), '-',
        digitChar (d.month / 10), digitChar (d.month % 10), '-',
        digitChar (d.day / 10), digitChar (d.day % 10)] := by
    simp [dateName, pad4, pad2]
  unfold date_fromisoformat
  rw [hdata]
  rw [parseIsoChars]
  rw [if_pos ⟨isDig_digitChar _ (by omega), isDig_digitChar _ (by omega),
    isDig_digitChar _ (by omega), isDig_digitChar _ (by omega), rfl,
    isDig_digitChar _ (by omega), isDig_digitChar _ (by omega), rfl,
    isDig_digitChar _ (by omega), isDig_digitChar _ (by omega)⟩]
  rw [digitVal_digitChar (d.year / 1000) (by omega),
    digitVal_digitChar (d.year / 100 % 10) (by omega),
    digitVal_digitChar (d.year / 10 % 10) (by omega),
    digitVal_digitChar (d.year % 10) (by omega),
    digitVal_digitChar (d.month / 10) (by omega),
    digitVal_digitChar (d.month % 10) (by omega),
    digitVal_digitChar (d.day / 10) (by omega),
    digitVal_digitChar (d.day % 10) (by omega)]
  have hy : 1000 * (d.year / 1000) + 100 * (d.year / 100 % 10) +
      10 * (d.year / 10 % 10) + d.year % 10 = d.year := by omega
  have hm : 10 * (d.month / 10) + d.month % 10 = d.month := by omega
  have hd : 10 * (d.day / 10) + d.day % 10 = d.day := by omega
  rw [hy, hm, hd]
  rw [if_pos ⟨h1, h2, h3, h4, h5, h6⟩]

/-- A successful parse yields a valid date whose canonical rendering is
the parsed string: acceptance is exactly the strict `YYYY-MM-DD` format. -/
theorem date_fromisoformat_some {s : String} {d : Date}
    (h : date_fromisoformat s = some d) : ValidDate d ∧ s = dateName d := by
  unfold date_fromisoformat parseIsoChars at h
  split at h
  case h_2 => exact absurd h (by simp)
  case h_1 y1 y2 y3 y4 s1 m1 m2 s2 d1 d2 hdata =>
    split_ifs at h with hdig hrange
    simp only [Option.some.injEq] at h
    obtain ⟨g1, g2, g3, g4, g5, g6, g7, g8, g9, g10⟩ := hdig
    have v1 := digitVal_le g1
    have v2 := digitVal_le g2
    have v3 := digitVal_le g3
    have v4 := digitVal_le g4
    have v5 := digitVal_le g6
    have v6 := digitVal_le g7
    have v7 := digitVal_le g9
    have v8 := digitVal_le g10
    constructor
    · rw [← h]
      exact ⟨hrange.1, hrange.2.1, hrange.2.2.1, hrange.2.2.2.1,
        hrange.2.2.2.2.1, hrange.2.2.2.2.2⟩
    · apply String.ext
      rw [hdata, ← h]
      simp only [dateName, pad4, pad2]
      rw [g5, g8]
      have e1 : (1000 * digitVal y1 + 100 * digitVal y2 +
          10 * digitVal y3 + digitVal y4) / 1000 = digitVal y1 := by omega
      have e2 : (1000 * digitVal y1 + 100 * digitVal y2 +
          10 * digitVal y3 + digitVal y4) / 100 % 10 = digitVal y2 := by
        omega
      have e3 : (1000 * digitVal y1 + 100 * digitVal y2 +
          10 * digitVal y3 + digitVal y4) / 10 % 10 = digitVal y3 := by
        omega
      have e4 : (1000 * digitVal y1 + 100 * digitVal y2 +
          10 * digitVal y3 + digitVal y4) % 10 = digitVal y4 := by omega
      have e5 : (10 * digitVal m1 + digitVal m2) / 10 = digitVal m1 := by
        omega
      have e6 : (10 * digitVal m1 + digitVal m2) % 10 = digitVal m2 := by
        omega
      have e7 : (10 * digitVal d1 + digitVal d2) / 10 = digitVal d1 := by
        omega
      have e8 : (10 * digitVal d1 + digitVal d2) % 10 = digitVal d2 := by
        omega
      rw [e1, e2, e3, e4, e5, e6, e7, e8]
      rw [digitChar_digitVal g1, digitChar_digitVal g2,
        digitChar_digitVal g3, digitChar_digitVal g4,
        digitChar_digitVal g6, digitChar_digitVal g7,
        digitChar_digitVal g9, digitChar_digitVal g10]
      simp

/-- Acceptance by the parser is exactly the strict format. -/
theorem date_fromisoformat_isSome_iff (s : String) :
    (∃ d, date_fromisoformat s = some d) ↔ strictDateFormat s := by
  constructor
  · intro ⟨d, hd⟩
    obtain ⟨hv, hs⟩ := date_fromisoformat_some hd
    exact ⟨d, hv, hs⟩
  · intro ⟨d, hv, hs⟩
    exact ⟨d, by rw [hs]; exact date_fromisoformat_dateName hv⟩

/-- The descending comparison used by `items.sort(reverse=True)` on the
`(date, path, name)` tuples (the path of a scanned sub-directory orders
like its name): `a` sorts no later than `b` when its tuple is larger. -/
def entryBefore (a b : Entry) : Bool :=
  decide (Date.lt b.date a.date) ||
    (decide (b.date = a.date) && decide (b.name < a.name))

def insertEntry (e : Entry) : List Entry → List Entry
  | [] => [e]
  | x :: xs => if entryBefore e x then e :: x :: xs else x :: insertEntry e xs

/-- The sort of `scan_directories` (insertion sort with the descending
tuple comparison). -/
def sortEntriesDesc (l : List Entry) : List Entry := l.foldr insertEntry []

theorem insertEntry_perm (e : Entry) (l : List Entry) :
    List.Perm (insertEntry e l) (e :: l) := by
  induction l with
  | nil => exact List.Perm.refl _
  | cons x xs ih =>
    rw [insertEntry]
    split_ifs with h
    · exact List.Perm.refl _
    · exact List.Perm.trans (List.Perm.cons x ih) (List.Perm.swap e x xs)

theorem sortEntriesDesc_perm (l : List Entry) :
    List.Perm (sortEntriesDesc l) l := by
  induction l with
  | nil => exact List.Perm.refl _
  | cons e xs ih =>
    exact List.Perm.trans (insertEntry_perm e (sortEntriesDesc xs))
      (List.Perm.cons e ih)

/-- `scan_directories(base)`: the listing supplies each item's name and
whether it is a directory; directories whose name parses as a date become
entries, everything else is skipped, and the result is sorted in
descending order. -/
def scan_directories (listing : List (String × Bool)) : List Entry :=
  sortEntriesDesc (listing.filterMap fun it =>
    if it.2 then (date_fromisoformat it.1).map fun ts => ⟨ts, it.1⟩
    else none)

/-- The decision-relevant behaviour of `main` after argument parsing: if
`any((args.daily, args.weekly, args.monthly, args.yearly))` fails (all
four ints are zero, zero being the only falsy int), `parser.error` exits
non-zero with a usage error (modelled by `none`) before any scanning;
otherwise the base directory is scanned and `choose_kept` runs. -/
def main (cfg : Config) (listing : List (String × Bool)) :
    Option (List Entry × PruneState) :=
  if cfg.daily ≠ 0 ∨ cfg.weekly ≠ 0 ∨ cfg.monthly ≠ 0 ∨ cfg.yearly ≠ 0 then
    some (scan_directories listing, choose_kept (scan_directories listing) cfg)
  else none

/-! ### List helpers for the claims -/

/-- In a list of entries with pairwise-distinct names, decomposition at a
given name is unique. -/
theorem nodup_unique_split {e f : Entry} (hef : e.name = f.name) :
    ∀ (l1 l2 L1 L2 : List Entry),
      ((l1 ++ e :: l2).map Entry.name).Nodup →
      l1 ++ e :: l2 = L1 ++ f :: L2 →
      l1 = L1 ∧ e = f ∧ l2 = L2 := by
  intro l1
  induction l1 with
  | nil =>
    intro l2 L1 L2 hnd heq
    cases L1 with
    | nil =>
      simp only [List.nil_append, List.cons.injEq] at heq
      exact ⟨rfl, heq.1, heq.2⟩
    | cons b u =>
      simp only [List.nil_append, List.cons_append, List.cons.injEq] at heq
      obtain ⟨hb, ht⟩ := heq
      exfalso
      simp only [List.nil_append, List.map_cons, List.nodup_cons] at hnd
      apply hnd.1
      rw [ht]
      exact List.mem_map.mpr ⟨f, by simp, hef.symm⟩
  | cons a t ih =>
    intro l2 L1 L2 hnd heq
    cases L1 with
    | nil =>
      simp only [List.cons_append, List.nil_append, List.cons.injEq] at heq
      obtain ⟨hb, ht⟩ := heq
      exfalso
      simp only [List.cons_append, List.map_cons, List.nodup_cons] at hnd
      apply hnd.1
      refine List.mem_map.mpr ⟨e, by simp, ?_⟩
      rw [hef, hb]
    | cons b u =>
      simp only [List.cons_append, List.cons.injEq] at heq
      obtain ⟨hb, ht⟩ := heq
      simp only [List.cons_append, List.map_cons, List.nodup_cons] at hnd
      obtain ⟨h1, h2, h3⟩ := ih l2 u L2 hnd.2 ht
      exact ⟨by rw [hb, h1], h2, h3⟩

/-- A sublist of a mapped list is the map of a sublist. -/
theorem sublist_map_exists {l' : List String} {l : List Entry}
    (h : List.Sublist l' (l.map Entry.name)) :
    ∃ es : List Entry, List.Sublist es l ∧ es.map Entry.name = l' := by
  induction l generalizing l' with
  | nil =>
    rw [List.map_nil] at h
    rw [List.sublist_nil] at h
    exact ⟨[], List.nil_sublist _, by rw [h]; rfl⟩
  | cons e t ih =>
    rw [List.map_cons] at h
    cases h with
    | cons _ hsub =>
      obtain ⟨es, h1, h2⟩ := ih hsub
      exact ⟨es, h1.cons e, h2⟩
    | cons₂ _ hsub =>
      obtain ⟨es, h1, h2⟩ := ih hsub
      exact ⟨e :: es, List.cons_sublist_cons.mpr h1, by
        rw [List.map_cons, h2]⟩

/-- Every binding produced by a pass carries that pass's rule. -/
theorem rule_of_mem_values {A : List (String × Rule × Int)} {r : Rule}
    (hval : A.map (fun b => b.2) =
      (List.range A.length).map (fun i : Nat => (r, 1 + (i : Int))))
    {b : String × Rule × Int} (hb : b ∈ A) : b.2.1 = r := by
  have hmem : b.2 ∈ A.map (fun b => b.2) := List.mem_map_of_mem _ hb
  rw [hval] at hmem
  obtain ⟨i, hi, hbi⟩ := List.mem_map.mp hmem
  rw [← hbi]

/-- `cfg` with the keep-count of rule `r` increased by `k`. -/
def Config.bump (c : Config) (r : Rule) (k : Nat) : Config :=
  match r with
  | .daily => ⟨c.daily + k, c.weekly, c.monthly, c.yearly⟩
  | .weekly => ⟨c.daily, c.weekly + k, c.monthly, c.yearly⟩
  | .monthly => ⟨c.daily, c.weekly, c.monthly + k, c.yearly⟩
  | .yearly => ⟨c.daily, c.weekly, c.monthly, c.yearly + k⟩

/-- `cfg` with the keep-count of rule `r` replaced by `v`. -/
def Config.setCount (c : Config) (r : Rule) (v : Int) : Config :=
  match r with
  | .daily => ⟨v, c.weekly, c.monthly, c.yearly⟩
  | .weekly => ⟨c.daily, v, c.monthly, c.yearly⟩
  | .monthly => ⟨c.daily, c.weekly, v, c.yearly⟩
  | .yearly => ⟨c.daily, c.weekly, c.monthly, v⟩

/-- Pointwise larger keep-counts keep at least the same names. -/
theorem choose_kept_mono_cfg {items : List Entry} {cfg cfg' : Config}
    (h : ∀ r, cfg.get r ≤ cfg'.get r) :
    ∀ x ∈ (choose_kept items cfg).kept, x ∈ (choose_kept items cfg').kept := by
  rw [choose_kept_eq, choose_kept_eq]
  apply prune_split_mono items _ ?_ (h .yearly)
  apply prune_split_mono items _ ?_ (h .monthly)
  apply prune_split_mono items _ ?_ (h .weekly)
  apply prune_split_mono items _ ?_ (h .daily)
  intro x hx
  exact hx

/-- C4: For every entry list, every config, and every single keep-count
increased by any amount while the other three are held fixed, every entry
kept under the original config is still kept under the increased config
(the kept set can only grow or stay the same). -/
theorem C4_single_count_increase_monotone (items : List Entry)
    (cfg : Config) (r₀ : Rule) (k : Nat) (nm : String)
    (h : nm ∈ (choose_kept items cfg).kept) :
    nm ∈ (choose_kept items (cfg.bump r₀ k)).kept := by
  refine choose_kept_mono_cfg ?_ nm h
  intro r
  cases r₀ <;> cases r <;> simp [Config.bump, Config.get] <;> omega

/-- Witness for C4 at a concrete input: with two dated entries and
`daily=1`, the kept name is still kept after raising `daily` by 1. -/
theorem C4_single_count_increase_monotone_witness :
    "2024-01-02" ∈ (choose_kept
        [⟨⟨2024, 1, 2⟩, "2024-01-02"⟩, ⟨⟨2024, 1, 1⟩, "2024-01-01"⟩]
        ⟨1, 0, 0, 0⟩).kept ∧
    "2024-01-02" ∈ (choose_kept
        [⟨⟨2024, 1, 2⟩, "2024-01-02"⟩, ⟨⟨2024, 1, 1⟩, "2024-01-01"⟩]
        ((⟨1, 0, 0, 0⟩ : Config).bump .daily 1)).kept :=
  ⟨by decide,
    C4_single_count_increase_monotone
      [⟨⟨2024, 1, 2⟩, "2024-01-02"⟩, ⟨⟨2024, 1, 1⟩, "2024-01-01"⟩]
      ⟨1, 0, 0, 0⟩ .daily 1 "2024-01-02" (by decide)⟩

/-- C3: For every entry list and every config with non-negative
keep-counts, the total number of entries marked kept by `choose_kept` is
at most `daily + weekly + monthly + yearly`. -/
theorem C3_kept_count_bounded (items : List Entry) (cfg : Config)
    (h : 0 ≤ cfg.daily ∧ 0 ≤ cfg.weekly ∧ 0 ≤ cfg.monthly ∧
      0 ≤ cfg.yearly) :
    ((choose_kept items cfg).kept.length : Int) ≤
      cfg.daily + cfg.weekly + cfg.monthly + cfg.yearly := by
  obtain ⟨h1, h2, h3, h4⟩ := h
  rw [choose_kept_eq]
  simp only [Config.get]
  obtain ⟨A1, e1, -, l1, -, -, -⟩ :=
    prune_split_spec items .daily cfg.daily ⟨[], []⟩
  obtain ⟨A2, e2, -, l2, -, -, -⟩ :=
    prune_split_spec items .weekly cfg.weekly
      (prune_split items .daily cfg.daily ⟨[], []⟩)
  obtain ⟨A3, e3, -, l3, -, -, -⟩ :=
    prune_split_spec items .monthly cfg.monthly
      (prune_split items .weekly cfg.weekly
        (prune_split items .daily cfg.daily ⟨[], []⟩))
  obtain ⟨A4, e4, -, l4, -, -, -⟩ :=
    prune_split_spec items .yearly cfg.yearly
      (prune_split items .monthly cfg.monthly
        (prune_split items .weekly cfg.weekly
          (prune_split items .daily cfg.daily ⟨[], []⟩)))
  rw [e4, e3, e2, e1]
  simp only [List.length_append, List.length_map, List.length_reverse,
    List.length_nil]
  rw [max_eq_left h1] at l1
  rw [max_eq_left h2] at l2
  rw [max_eq_left h3] at l3
  rw [max_eq_left h4] at l4
  push_cast
  omega

/-- Witness for C3 at a concrete input: ten daily entries, config
`(3, 1, 0, 0)`. -/
theorem C3_kept_count_bounded_witness :
    (0 ≤ (3 : Int) ∧ 0 ≤ (1 : Int) ∧ 0 ≤ (0 : Int) ∧ 0 ≤ (0 : Int)) ∧
    (((choose_kept
        [⟨⟨2024, 1, 3⟩, "2024-01-03"⟩, ⟨⟨2024, 1, 2⟩, "2024-01-02"⟩,
          ⟨⟨2024, 1, 1⟩, "2024-01-01"⟩] ⟨3, 1, 0, 0⟩).kept.length : Int) ≤
      3 + 1 + 0 + 0) :=
  ⟨⟨by decide, by decide, by decide, by decide⟩,
    C3_kept_count_bounded
      [⟨⟨2024, 1, 3⟩, "2024-01-03"⟩, ⟨⟨2024, 1, 2⟩, "2024-01-02"⟩,
        ⟨⟨2024, 1, 1⟩, "2024-01-01"⟩] ⟨3, 1, 0, 0⟩
      ⟨by decide, by decide, by decide, by decide⟩⟩

/-- C10: For every rule, entry list, and state, `prune_split` with a
keep-count `n ≤ 0` (including any negative value) leaves the kept set and
the reason dict exactly unchanged and raises no error; consequently
`choose_kept` with a non-positive count for some rule behaves identically
to the same config with that count replaced by 0. -/
theorem C10_nonpositive_count_disables_rule :
    (∀ (items : List Entry) (r : Rule) (n : Int) (st : PruneState),
      n ≤ 0 → prune_split items r n st = st) ∧
    (∀ (items : List Entry) (cfg : Config) (r₀ : Rule),
      cfg.get r₀ ≤ 0 →
        choose_kept items cfg = choose_kept items (cfg.setCount r₀ 0)) := by
  have hz : ∀ (items : List Entry) (r : Rule) (n : Int) (st : PruneState),
      n ≤ 0 → prune_split items r n st = st := by
    intro items r n st hn
    simp [prune_split, hn]
  refine ⟨hz, ?_⟩
  intro items cfg r₀ h
  rw [choose_kept_eq, choose_kept_eq]
  cases r₀ with
  | daily =>
    simp only [Config.setCount, Config.get] at h ⊢
    rw [hz items .daily _ _ h, hz items .daily 0 _ (by omega)]
  | weekly =>
    simp only [Config.setCount, Config.get] at h ⊢
    rw [hz items .weekly _ _ h, hz items .weekly 0 _ (by omega)]
  | monthly =>
    simp only [Config.setCount, Config.get] at h ⊢
    rw [hz items .monthly _ _ h, hz items .monthly 0 _ (by omega)]
  | yearly =>
    simp only [Config.setCount, Config.get] at h ⊢
    rw [hz items .yearly _ _ h, hz items .yearly 0 _ (by omega)]

/-- Witness for C10 at a concrete input: a negative daily count is a
no-op for `prune_split`, and zeroing it leaves `choose_kept` unchanged. -/
theorem C10_nonpositive_count_disables_rule_witness :
    ((-1 : Int) ≤ 0 ∧
      prune_split [⟨⟨2024, 1, 1⟩, "2024-01-01"⟩] .daily (-1) ⟨[], []⟩ =
        ⟨[], []⟩) ∧
    ((⟨-1, 1, 0, 0⟩ : Config).get .daily ≤ 0 ∧
      choose_kept [⟨⟨2024, 1, 1⟩, "2024-01-01"⟩] ⟨-1, 1, 0, 0⟩ =
        choose_kept [⟨⟨2024, 1, 1⟩, "2024-01-01"⟩]
          ((⟨-1, 1, 0, 0⟩ : Config).setCount .daily 0)) :=
  ⟨⟨by decide,
    C10_nonpositive_count_disables_rule.1 [⟨⟨2024, 1, 1⟩, "2024-01-01"⟩]
      .daily (-1) ⟨[], []⟩ (by decide)⟩,
    ⟨by decide,
      C10_nonpositive_count_disables_rule.2 [⟨⟨2024, 1, 1⟩, "2024-01-01"⟩]
        ⟨-1, 1, 0, 0⟩ .daily (by decide)⟩⟩

/-- C7 counterexample: the configuration `(-1, 0, 0, 0)` contains a
negative keep-count, yet the program does not reject it — `main` proceeds
past validation (a nonzero int is truthy for `any`), scans, and runs the
engine. -/
theorem C7_counterexample :
    ¬ (main ⟨-1, 0, 0, 0⟩ [("2024-01-01", true)] = none) := by
  decide

/-- C7 amended: a configuration containing a negative keep-count is *not*
rejected: the negative count satisfies the `any` validation check, so the
program always proceeds to scan and invokes the retention engine with the
negative count (which rule-wise keeps nothing, by the `n <= 0` guard). -/
theorem C7_negative_count_not_rejected (cfg : Config)
    (listing : List (String × Bool))
    (h : cfg.daily < 0 ∨ cfg.weekly < 0 ∨ cfg.monthly < 0 ∨
      cfg.yearly < 0) :
    main cfg listing =
      some (scan_directories listing,
        choose_kept (scan_directories listing) cfg) := by
  unfold main
  rw [if_pos]
  rcases h with h | h | h | h
  · exact .inl (by omega)
  · exact .inr (.inl (by omega))
  · exact .inr (.inr (.inl (by omega)))
  · exact .inr (.inr (.inr (by omega)))

/-- Witness for the amended C7 at a concrete input. -/
theorem C7_negative_count_not_rejected_witness :
    ((-1 : Int) < 0 ∨ (0 : Int) < 0 ∨ (0 : Int) < 0 ∨ (0 : Int) < 0) ∧
    main ⟨-1, 0, 0, 0⟩ [("2024-01-01", true)] =
      some (scan_directories [("2024-01-01", true)],
        choose_kept (scan_directories [("2024-01-01", true)])
          ⟨-1, 0, 0, 0⟩) :=
  ⟨by decide,
    C7_negative_count_not_rejected ⟨-1, 0, 0, 0⟩ [("2024-01-01", true)]
      (by decide)⟩

/-- C8 counterexample: in the invocation with counts `(-1, 0, 0, 0)` no
keep-count is positive, yet the program does not report a usage error —
it proceeds to scan (the negative count is truthy for `any`). -/
theorem C8_counterexample :
    (¬ (0 < (-1 : Int) ∨ 0 < (0 : Int) ∨ 0 < (0 : Int) ∨ 0 < (0 : Int))) ∧
    ¬ (main ⟨-1, 0, 0, 0⟩ [("2024-01-01", true)] = none) := by
  exact ⟨by decide, by decide⟩

/-- C8 amended: the usage error (exit before any scan) occurs exactly
when all four keep-counts are zero; in particular the all-zero
configuration is rejected before any scan. -/
theorem C8_usage_error_iff_all_zero (cfg : Config)
    (listing : List (String × Bool)) :
    main cfg listing = none ↔
      (cfg.daily = 0 ∧ cfg.weekly = 0 ∧ cfg.monthly = 0 ∧
        cfg.yearly = 0) := by
  unfold main
  split_ifs with h
  · constructor
    · intro hc
      exact absurd hc (by simp)
    · intro hz
      obtain ⟨z1, z2, z3, z4⟩ := hz
      rcases h with h | h | h | h <;> omega
  · constructor
    · intro _
      push_neg at h
      exact h
    · intro _
      rfl

/-- C9: an item of the directory listing is accepted as a dated entry
exactly when its name is a strict calendar date of the form `YYYY-MM-DD`;
an item whose name does not match is silently excluded from the candidate
set (the scan raises no error and the name never reaches a decision). -/
theorem C9_accepts_exactly_strict_dates (listing : List (String × Bool))
    (nm : String) (hdir : (nm, true) ∈ listing) :
    (∃ e ∈ scan_directories listing, e.name = nm) ↔ strictDateFormat nm := by
  have hperm := sortEntriesDesc_perm (listing.filterMap fun it =>
    if it.2 then (date_fromisoformat it.1).map fun ts => ⟨ts, it.1⟩
    else none)
  constructor
  · intro ⟨e, hmem, hname⟩
    unfold scan_directories at hmem
    have hmem' := hperm.mem_iff.mp hmem
    obtain ⟨it, hit, hfe⟩ := List.mem_filterMap.mp hmem'
    by_cases h2 : it.2 = true
    · rw [if_pos h2] at hfe
      obtain ⟨d, hd, he⟩ := Option.map_eq_some'.mp hfe
      have hnm : it.1 = nm := by
        rw [← hname, ← he]
      rw [← hnm]
      exact (date_fromisoformat_isSome_iff it.1).mp ⟨d, hd⟩
    · rw [if_neg h2] at hfe
      exact absurd hfe (by simp)
  · intro hformat
    obtain ⟨d, hval⟩ := (date_fromisoformat_isSome_iff nm).mpr hformat
    refine ⟨⟨d, nm⟩, ?_, rfl⟩
    unfold scan_directories
    apply hperm.mem_iff.mpr
    apply List.mem_filterMap.mpr
    exact ⟨(nm, true), hdir, by simp [hval]⟩

/-- Witness for C9 at a concrete listing containing a dated directory and
a non-date directory. -/
theorem C9_accepts_exactly_strict_dates_witness :
    (("not-a-date", true) ∈
      [("2024-01-01", true), ("not-a-date", true)]) ∧
    ((∃ e ∈ scan_directories [("2024-01-01", true), ("not-a-date", true)],
        e.name = "not-a-date") ↔ strictDateFormat "not-a-date") :=
  ⟨by decide,
    C9_accepts_exactly_strict_dates
      [("2024-01-01", true), ("not-a-date", true)] "not-a-date" (by decide)⟩

/-- A pass preserves the invariant that the kept set is exactly the set
of bound names, without duplicates. -/
theorem prune_split_wf {st : PruneState}
    (h1 : st.kept = st.because.map Prod.fst) (h2 : st.kept.Nodup)
    (items : List Entry) (r : Rule) (n : Int) :
    (prune_split items r n st).kept =
      (prune_split items r n st).because.map Prod.fst ∧
    (prune_split items r n st).kept.Nodup := by
  obtain ⟨A, e1, -, -, -, hfresh, hnd⟩ := prune_split_spec items r n st
  rw [e1]
  constructor
  · simp only [List.map_append]
    rw [h1]
  · apply List.Nodup.append
    · rw [List.map_reverse, List.nodup_reverse]
      exact hnd
    · exact h2
    · intro x hx hx2
      rw [List.map_reverse, List.mem_reverse] at hx
      exact hfresh x hx hx2

/-- An existing binding survives any later pass unchanged (the name is
already in the kept set, so the pass never rebinds it). -/
theorem prune_split_lookup_stable {st : PruneState}
    (hwf : st.kept = st.because.map Prod.fst) {nm : String}
    {v : Rule × Int} (h : List.lookup nm st.because = some v)
    (items : List Entry) (r : Rule) (n : Int) :
    List.lookup nm (prune_split items r n st).because = some v := by
  obtain ⟨A, e1, -, -, -, hfresh, -⟩ := prune_split_spec items r n st
  rw [e1]
  have hk : nm ∈ st.kept := by
    rw [hwf]
    exact mem_keys_of_lookup h
  have hnot : nm ∉ (A.reverse).map Prod.fst := by
    rw [List.map_reverse, List.mem_reverse]
    intro hc
    exact hfresh nm hc hk
  rw [lookup_append_of_not_mem hnot]
  exact h

/-- C2: an entry kept by an earlier rule is never reconsidered by a later
rule: every binding made after the first `k` rules is still the final
binding, the final kept set is exactly the set of bound names with no
duplicates (so it is a disjoint union across rule tiers), and in
particular a name the Daily pass binds stays attributed to Daily, never
Weekly. -/
theorem C2_first_rule_wins (items : List Entry) (cfg : Config) :
    (choose_kept items cfg).kept =
      (choose_kept items cfg).because.map Prod.fst ∧
    (choose_kept items cfg).kept.Nodup ∧
    (∀ (k : Nat) (nm : String) (v : Rule × Int),
      List.lookup nm (chooseKeptUpTo items cfg k).because = some v →
      List.lookup nm (choose_kept items cfg).because = some v) ∧
    (∀ (nm : String) (i : Int),
      List.lookup nm (chooseKeptUpTo items cfg 1).because =
        some (Rule.daily, i) →
      List.lookup nm (choose_kept items cfg).because =
        some (Rule.daily, i)) := by
  have h0k : (⟨[], []⟩ : PruneState).kept =
      (⟨[], []⟩ : PruneState).because.map Prod.fst := rfl
  have h0n : (⟨[], []⟩ : PruneState).kept.Nodup := List.nodup_nil
  obtain ⟨w1, n1⟩ := prune_split_wf h0k h0n items .daily (cfg.get .daily)
  obtain ⟨w2, n2⟩ := prune_split_wf w1 n1 items .weekly (cfg.get .weekly)
  obtain ⟨w3, n3⟩ := prune_split_wf w2 n2 items .monthly (cfg.get .monthly)
  obtain ⟨w4, n4⟩ := prune_split_wf w3 n3 items .yearly (cfg.get .yearly)
  have stab : ∀ (k : Nat) (nm : String) (v : Rule × Int),
      List.lookup nm (chooseKeptUpTo items cfg k).because = some v →
      List.lookup nm (choose_kept items cfg).because = some v := by
    intro k nm v hk
    rw [choose_kept_eq]
    rcases k with _ | _ | _ | _ | j
    · have hk' : List.lookup nm ([] : List (String × Rule × Int)) =
          some v := hk
      simp [List.lookup] at hk'
    · have hk' : List.lookup nm
          (prune_split items .daily (cfg.get .daily)
            ⟨[], []⟩).because = some v := hk
      exact prune_split_lookup_stable w3
        (prune_split_lookup_stable w2
          (prune_split_lookup_stable w1 hk' items .weekly (cfg.get .weekly))
          items .monthly (cfg.get .monthly))
        items .yearly (cfg.get .yearly)
    · have hk' : List.lookup nm
          (prune_split items .weekly (cfg.get .weekly)
            (prune_split items .daily (cfg.get .daily)
              ⟨[], []⟩)).because = some v := hk
      exact prune_split_lookup_stable w3
        (prune_split_lookup_stable w2 hk' items .monthly (cfg.get .monthly))
        items .yearly (cfg.get .yearly)
    · have hk' : List.lookup nm
          (prune_split items .monthly (cfg.get .monthly)
            (prune_split items .weekly (cfg.get .weekly)
              (prune_split items .daily (cfg.get .daily)
                ⟨[], []⟩))).because = some v := hk
      exact prune_split_lookup_stable w3 hk' items .yearly (cfg.get .yearly)
    · have htake : ruleOrder.take (j + 1 + 1 + 1 + 1) = ruleOrder :=
        List.take_of_length_le (by simp [ruleOrder])
      unfold chooseKeptUpTo at hk
      rw [htake] at hk
      exact hk
  refine ⟨by rw [choose_kept_eq]; exact w4,
    by rw [choose_kept_eq]; exact n4, stab,
    fun nm i h => stab 1 nm (Rule.daily, i) h⟩

/-- Witness for C2 at a concrete input: the Daily pass binds the newest
entry first, and the binding survives to the final decision. -/
theorem C2_first_rule_wins_witness :
    List.lookup "2024-01-02"
      (chooseKeptUpTo
        [⟨⟨2024, 1, 2⟩, "2024-01-02"⟩, ⟨⟨2024, 1, 1⟩, "2024-01-01"⟩]
        ⟨1, 1, 0, 0⟩ 1).because = some (Rule.daily, 1) ∧
    List.lookup "2024-01-02"
      (choose_kept
        [⟨⟨2024, 1, 2⟩, "2024-01-02"⟩, ⟨⟨2024, 1, 1⟩, "2024-01-01"⟩]
        ⟨1, 1, 0, 0⟩).because = some (Rule.daily, 1) :=
  ⟨by decide,
    (C2_first_rule_wins
      [⟨⟨2024, 1, 2⟩, "2024-01-02"⟩, ⟨⟨2024, 1, 1⟩, "2024-01-01"⟩]
      ⟨1, 1, 0, 0⟩).2.2.2 "2024-01-02" 1 (by decide)⟩

/-- The bindings a given rule contributed to the final reason dict, in
evaluation order (the dict holds the most recent binding first, so the
filtered list is reversed). -/
def ruleSegment (st : PruneState) (r : Rule) :
    List (String × Rule × Int) :=
  (st.because.filter fun b => b.2.1 == r).reverse

theorem filter_rule_eq_self {A : List (String × Rule × Int)} {r : Rule}
    (h : ∀ b ∈ A, b.2.1 = r) :
    (A.reverse.filter fun b => b.2.1 == r) = A.reverse := by
  apply List.filter_eq_self.mpr
  intro b hb
  rw [List.mem_reverse] at hb
  simp [h b hb]

theorem filter_rule_eq_nil {A : List (String × Rule × Int)} {r r' : Rule}
    (h : ∀ b ∈ A, b.2.1 = r) (hne : r ≠ r') :
    (A.reverse.filter fun b => b.2.1 == r') = [] := by
  apply List.filter_eq_nil_iff.mpr
  intro b hb
  rw [List.mem_reverse] at hb
  simp [h b hb, hne]

/-- The final segment of rule `r` is exactly the binding list of the `r`
pass: counters `1..k`, at most the keep-count of `r`, names walked in
order. -/
theorem choose_kept_segment (items : List Entry) (cfg : Config)
    (r : Rule) :
    ∃ A : List (String × Rule × Int),
      ruleSegment (choose_kept items cfg) r = A ∧
      A.map (fun b => b.2) =
        (List.range A.length).map (fun i : Nat => (r, 1 + (i : Int))) ∧
      (A.length : Int) ≤ max (cfg.get r) 0 ∧
      List.Sublist (A.map Prod.fst) (items.map Entry.name) := by
  obtain ⟨A1, e1, v1, l1, s1, -, -⟩ :=
    prune_split_spec items .daily (cfg.get .daily) ⟨[], []⟩
  obtain ⟨A2, e2, v2, l2, s2, -, -⟩ :=
    prune_split_spec items .weekly (cfg.get .weekly)
      (prune_split items .daily (cfg.get .daily) ⟨[], []⟩)
  obtain ⟨A3, e3, v3, l3, s3, -, -⟩ :=
    prune_split_spec items .monthly (cfg.get .monthly)
      (prune_split items .weekly (cfg.get .weekly)
        (prune_split items .daily (cfg.get .daily) ⟨[], []⟩))
  obtain ⟨A4, e4, v4, l4, s4, -, -⟩ :=
    prune_split_spec items .yearly (cfg.get .yearly)
      (prune_split items .monthly (cfg.get .monthly)
        (prune_split items .weekly (cfg.get .weekly)
          (prune_split items .daily (cfg.get .daily) ⟨[], []⟩)))
  have hbec : (choose_kept items cfg).because =
      A4.reverse ++ (A3.reverse ++ (A2.reverse ++ A1.reverse)) := by
    rw [choose_kept_eq, e4, e3, e2, e1]
    simp [List.append_assoc]
  have hr1 : ∀ b ∈ A1, b.2.1 = Rule.daily :=
    fun b hb => rule_of_mem_values v1 hb
  have hr2 : ∀ b ∈ A2, b.2.1 = Rule.weekly :=
    fun b hb => rule_of_mem_values v2 hb
  have hr3 : ∀ b ∈ A3, b.2.1 = Rule.monthly :=
    fun b hb => rule_of_mem_values v3 hb
  have hr4 : ∀ b ∈ A4, b.2.1 = Rule.yearly :=
    fun b hb => rule_of_mem_values v4 hb
  cases r with
  | daily =>
    refine ⟨A1, ?_, v1, l1, s1⟩
    unfold ruleSegment
    rw [hbec, List.filter_append, List.filter_append, List.filter_append]
    rw [filter_rule_eq_nil hr4 (by decide),
      filter_rule_eq_nil hr3 (by decide),
      filter_rule_eq_nil hr2 (by decide), filter_rule_eq_self hr1]
    simp
  | weekly =>
    refine ⟨A2, ?_, v2, l2, s2⟩
    unfold ruleSegment
    rw [hbec, List.filter_append, List.filter_append, List.filter_append]
    rw [filter_rule_eq_nil hr4 (by decide),
      filter_rule_eq_nil hr3 (by decide),
      filter_rule_eq_self hr2, filter_rule_eq_nil hr1 (by decide)]
    simp
  | monthly =>
    refine ⟨A3, ?_, v3, l3, s3⟩
    unfold ruleSegment
    rw [hbec, List.filter_append, List.filter_append, List.filter_append]
    rw [filter_rule_eq_nil hr4 (by decide), filter_rule_eq_self hr3,
      filter_rule_eq_nil hr2 (by decide),
      filter_rule_eq_nil hr1 (by decide)]
    simp
  | yearly =>
    refine ⟨A4, ?_, v4, l4, s4⟩
    unfold ruleSegment
    rw [hbec, List.filter_append, List.filter_append, List.filter_append]
    rw [filter_rule_eq_self hr4, filter_rule_eq_nil hr3 (by decide),
      filter_rule_eq_nil hr2 (by decide),
      filter_rule_eq_nil hr1 (by decide)]
    simp

/-- The ten consecutive daily entries of the spec scenario, in
date-descending order. -/
def scenarioTenDays : List Entry :=
  [⟨⟨2024, 1, 10⟩, "2024-01-10"⟩, ⟨⟨2024, 1, 9⟩, "2024-01-09"⟩,
    ⟨⟨2024, 1, 8⟩, "2024-01-08"⟩, ⟨⟨2024, 1, 7⟩, "2024-01-07"⟩,
    ⟨⟨2024, 1, 6⟩, "2024-01-06"⟩, ⟨⟨2024, 1, 5⟩, "2024-01-05"⟩,
    ⟨⟨2024, 1, 4⟩, "2024-01-04"⟩, ⟨⟨2024, 1, 3⟩, "2024-01-03"⟩,
    ⟨⟨2024, 1, 2⟩, "2024-01-02"⟩, ⟨⟨2024, 1, 1⟩, "2024-01-01"⟩]

/-- C6: the ordinals recorded for a rule's keeps are its 1-based rank in
evaluation order — the consecutive sequence `1, 2, ..., k` with `k` at
most the rule's keep-count, and the kept names follow the evaluation
(date-descending) order of the items, so more recent entries receive
smaller ordinals; the ten-day scenario with `daily=3` keeps exactly the
three newest entries with ordinals 1, 2, 3 and prunes the rest. -/
theorem C6_ordinals_are_rank (items : List Entry) (cfg : Config)
    (r : Rule)
    (hsort : items.Pairwise (fun a b => Date.le b.date a.date)) :
    ((ruleSegment (choose_kept items cfg) r).map (fun b => b.2.2) =
      (List.range (ruleSegment (choose_kept items cfg) r).length).map
        (fun i : Nat => 1 + (i : Int))) ∧
    (0 ≤ cfg.get r →
      ((ruleSegment (choose_kept items cfg) r).length : Int) ≤
        cfg.get r) ∧
    (∃ es : List Entry, List.Sublist es items ∧
      es.map Entry.name =
        (ruleSegment (choose_kept items cfg) r).map Prod.fst ∧
      es.Pairwise (fun a b => Date.le b.date a.date)) ∧
    choose_kept scenarioTenDays ⟨3, 0, 0, 0⟩ =
      ⟨["2024-01-08", "2024-01-09", "2024-01-10"],
        [("2024-01-08", Rule.daily, 3), ("2024-01-09", Rule.daily, 2),
          ("2024-01-10", Rule.daily, 1)]⟩ := by
  obtain ⟨A, hseg, hval, hlen, hsub⟩ := choose_kept_segment items cfg r
  rw [hseg]
  refine ⟨?_, ?_, ?_, by decide⟩
  · have hmapped := congrArg (List.map Prod.snd) hval
    rw [List.map_map, List.map_map] at hmapped
    simpa [Function.comp] using hmapped
  · intro h0
    rw [max_eq_left h0] at hlen
    exact hlen
  · obtain ⟨es, hs1, hs2⟩ := sublist_map_exists hsub
    exact ⟨es, hs1, hs2, hsort.sublist hs1⟩

/-- Witness for C6 at the scenario input itself. -/
theorem C6_ordinals_are_rank_witness :
    scenarioTenDays.Pairwise (fun a b => Date.le b.date a.date) ∧
    (((ruleSegment (choose_kept scenarioTenDays ⟨3, 0, 0, 0⟩)
          Rule.daily).map (fun b => b.2.2) =
      (List.range (ruleSegment (choose_kept scenarioTenDays ⟨3, 0, 0, 0⟩)
          Rule.daily).length).map (fun i : Nat => 1 + (i : Int))) ∧
    (0 ≤ (⟨3, 0, 0, 0⟩ : Config).get Rule.daily →
      ((ruleSegment (choose_kept scenarioTenDays ⟨3, 0, 0, 0⟩)
          Rule.daily).length : Int) ≤
        (⟨3, 0, 0, 0⟩ : Config).get Rule.daily) ∧
    (∃ es : List Entry, List.Sublist es scenarioTenDays ∧
      es.map Entry.name =
        (ruleSegment (choose_kept scenarioTenDays ⟨3, 0, 0, 0⟩)
          Rule.daily).map Prod.fst ∧
      es.Pairwise (fun a b => Date.le b.date a.date)) ∧
    choose_kept scenarioTenDays ⟨3, 0, 0, 0⟩ =
      ⟨["2024-01-08", "2024-01-09", "2024-01-10"],
        [("2024-01-08", Rule.daily, 3), ("2024-01-09", Rule.daily, 2),
          ("2024-01-10", Rule.daily, 1)]⟩) :=
  ⟨by decide,
    C6_ordinals_are_rank scenarioTenDays ⟨3, 0, 0, 0⟩ Rule.daily
      (by decide)⟩

/-- A name newly kept by a pass over a sorted, valid, name-distinct list
heads its period bucket: no entry of the same period has a later date. -/
theorem prune_split_recency {items : List Entry} {r : Rule} {n : Int}
    {st : PruneState}
    (hsort : items.Pairwise (fun a b => Date.le b.date a.date))
    (hvalid : ∀ x ∈ items, ValidDate x.date)
    (hnodup : (items.map Entry.name).Nodup)
    {e : Entry} (he : e ∈ items)
    (hkept : e.name ∈ (prune_split items r n st).kept)
    (hnot : e.name ∉ st.kept) :
    ∀ e2 ∈ items, periodKey r e2.date = periodKey r e.date →
      Date.le e2.date e.date := by
  intro e2 he2 hpk
  by_contra hle
  rcases prune_split_site items r n st e.name hkept with hm | hsite
  · exact hnot hm
  obtain ⟨l1, f, l2, hdecomp, hfname, hc2⟩ := hsite
  obtain ⟨La, Lb, hLa⟩ := List.append_of_mem he
  have hnd2 : ((La ++ e :: Lb).map Entry.name).Nodup := by
    rw [← hLa]; exact hnodup
  obtain ⟨hL1, hEf, hL2⟩ := nodup_unique_split hfname.symm La Lb l1 l2 hnd2
    (hLa.symm.trans hdecomp)
  have hfe : f = e := hEf.symm
  subst hfe
  have hsort' : (l1 ++ f :: l2).Pairwise
      (fun a b => Date.le b.date a.date) := by
    rw [← hdecomp]; exact hsort
  obtain ⟨hp1, hp2, hcross⟩ := List.pairwise_append.mp hsort'
  have he2' := he2
  rw [hdecomp] at he2'
  rcases List.mem_append.mp he2' with h2a | h2b
  · -- e2 strictly before the keep site
    rcases List.eq_nil_or_concat l1 with hnil | ⟨l1', p, hcat⟩
    · rw [hnil] at h2a
      exact absurd h2a (by simp)
    · have hcat' : l1 = l1' ++ [p] := by
        rw [hcat, List.concat_eq_append]
      have hc2p := hc2 l1' p hcat'
      have hp_in : p ∈ l1 := by rw [hcat']; simp
      have hRpe : Date.le f.date p.date :=
        hcross p hp_in f (List.mem_cons_self _ _)
      have hpitems : p ∈ items := by
        rw [hdecomp]
        exact List.mem_append_left _ hp_in
      have hvp : ValidDate p.date := hvalid p hpitems
      have hvf : ValidDate f.date := hvalid f he
      have hve2 : ValidDate e2.date := hvalid e2 he2
      rw [hcat'] at h2a
      rcases List.mem_append.mp h2a with h2c | h2d
      · -- e2 earlier than the predecessor entry
        obtain ⟨hq1, -, hqcross⟩ :=
          List.pairwise_append.mp (hcat' ▸ hp1)
        have hRe2p : Date.le p.date e2.date :=
          hqcross e2 h2c p (by simp)
        have := periodKey_convex hve2 hvp hvf hRpe hRe2p hpk
        exact hc2p (this.trans hpk)
      · -- e2 is the predecessor entry itself
        have h2p : e2 = p := by
          simpa using h2d
        rw [← h2p] at hc2p
        exact hc2p hpk
  · rcases List.mem_cons.mp h2b with h2c | h2d
    · -- e2 is the kept entry
      apply hle
      rw [h2c]
      exact Date.le_refl _
    · -- e2 after the keep site: the sort order bounds its date
      apply hle
      exact (List.pairwise_cons.mp hp2).1 e2 h2d

/-- C1: whenever a weekly, monthly, or yearly rule keeps an entry, that
entry is the chronologically latest entry of its period bucket present in
the (date-descending, valid, name-distinct) input list. -/
theorem C1_kept_entry_is_latest_of_period (items : List Entry)
    (cfg : Config)
    (hsort : items.Pairwise (fun a b => Date.le b.date a.date))
    (hvalid : ∀ x ∈ items, ValidDate x.date)
    (hnodup : (items.map Entry.name).Nodup)
    (r : Rule) (hr : r = .weekly ∨ r = .monthly ∨ r = .yearly)
    (e : Entry) (he : e ∈ items) (i : Int)
    (hb : List.lookup e.name (choose_kept items cfg).because = some (r, i)) :
    ∀ e2 ∈ items, periodKey r e2.date = periodKey r e.date →
      Date.le e2.date e.date := by
  obtain ⟨A1, q1, v1, -, -, f1, -⟩ :=
    prune_split_spec items .daily (cfg.get .daily) ⟨[], []⟩
  obtain ⟨A2, q2, v2, -, -, f2, -⟩ :=
    prune_split_spec items .weekly (cfg.get .weekly)
      (prune_split items .daily (cfg.get .daily) ⟨[], []⟩)
  obtain ⟨A3, q3, v3, -, -, f3, -⟩ :=
    prune_split_spec items .monthly (cfg.get .monthly)
      (prune_split items .weekly (cfg.get .weekly)
        (prune_split items .daily (cfg.get .daily) ⟨[], []⟩))
  obtain ⟨A4, q4, v4, -, -, f4, -⟩ :=
    prune_split_spec items .yearly (cfg.get .yearly)
      (prune_split items .monthly (cfg.get .monthly)
        (prune_split items .weekly (cfg.get .weekly)
          (prune_split items .daily (cfg.get .daily) ⟨[], []⟩)))
  have hbec : (choose_kept items cfg).because =
      A4.reverse ++ (A3.reverse ++ (A2.reverse ++ A1.reverse)) := by
    rw [choose_kept_eq, q4, q3, q2, q1]
    simp [List.append_assoc]
  have hmem : (e.name, (r, i)) ∈ (choose_kept items cfg).because :=
    lookup_mem hb
  rw [hbec] at hmem
  simp only [List.mem_append, List.mem_reverse] at hmem
  rcases hr with hr | hr | hr <;> subst hr
  · -- r = weekly: the binding can only come from the weekly pass
    rcases hmem with h4 | h3 | h2 | h1
    · have hcontra := rule_of_mem_values v4 h4
      simp at hcontra
    · have hcontra := rule_of_mem_values v3 h3
      simp at hcontra
    · have hname : e.name ∈ A2.map Prod.fst := by
        simpa using List.mem_map_of_mem Prod.fst h2
      have hnot : e.name ∉
          (prune_split items .daily (cfg.get .daily) ⟨[], []⟩).kept :=
        f2 e.name hname
      have hkept : e.name ∈ (prune_split items .weekly (cfg.get .weekly)
          (prune_split items .daily (cfg.get .daily) ⟨[], []⟩)).kept := by
        rw [q2]
        exact List.mem_append_left _
          (by rw [List.map_reverse, List.mem_reverse]; exact hname)
      exact prune_split_recency hsort hvalid hnodup he hkept hnot
    · have hcontra := rule_of_mem_values v1 h1
      simp at hcontra
  · -- r = monthly
    rcases hmem with h4 | h3 | h2 | h1
    · have hcontra := rule_of_mem_values v4 h4
      simp at hcontra
    · have hname : e.name ∈ A3.map Prod.fst := by
        simpa using List.mem_map_of_mem Prod.fst h3
      have hnot : e.name ∉
          (prune_split items .weekly (cfg.get .weekly)
            (prune_split items .daily (cfg.get .daily) ⟨[], []⟩)).kept :=
        f3 e.name hname
      have hkept : e.name ∈ (prune_split items .monthly (cfg.get .monthly)
          (prune_split items .weekly (cfg.get .weekly)
            (prune_split items .daily (cfg.get .daily) ⟨[], []⟩))).kept := by
        rw [q3]
        exact List.mem_append_left _
          (by rw [List.map_reverse, List.mem_reverse]; exact hname)
      exact prune_split_recency hsort hvalid hnodup he hkept hnot
    · have hcontra := rule_of_mem_values v2 h2
      simp at hcontra
    · have hcontra := rule_of_mem_values v1 h1
      simp at hcontra
  · -- r = yearly
    rcases hmem with h4 | h3 | h2 | h1
    · have hname : e.name ∈ A4.map Prod.fst := by
        simpa using List.mem_map_of_mem Prod.fst h4
      have hnot : e.name ∉
          (prune_split items .monthly (cfg.get .monthly)
            (prune_split items .weekly (cfg.get .weekly)
              (prune_split items .daily (cfg.get .daily) ⟨[], []⟩))).kept :=
        f4 e.name hname
      have hkept : e.name ∈ (prune_split items .yearly (cfg.get .yearly)
          (prune_split items .monthly (cfg.get .monthly)
            (prune_split items .weekly (cfg.get .weekly)
              (prune_split items .daily (cfg.get .daily)
                ⟨[], []⟩)))).kept := by
        rw [q4]
        exact List.mem_append_left _
          (by rw [List.map_reverse, List.mem_reverse]; exact hname)
      exact prune_split_recency hsort hvalid hnodup he hkept hnot
    · have hcontra := rule_of_mem_values v3 h3
      simp at hcontra
    · have hcontra := rule_of_mem_values v2 h2
      simp at hcontra
    · have hcontra := rule_of_mem_values v1 h1
      simp at hcontra

/-- Witness for C1 at the spec's two-week scenario: with `weekly=1` the
kept entry `2024-01-08` is the latest of its ISO week in the list. -/
theorem C1_kept_entry_is_latest_of_period_witness :
    List.lookup "2024-01-08"
      (choose_kept [⟨⟨2024, 1, 8⟩, "2024-01-08"⟩,
        ⟨⟨2024, 1, 5⟩, "2024-01-05"⟩] ⟨0, 1, 0, 0⟩).because =
      some (Rule.weekly, 1) ∧
    (∀ e2 ∈ [⟨⟨2024, 1, 8⟩, "2024-01-08"⟩,
        (⟨⟨2024, 1, 5⟩, "2024-01-05"⟩ : Entry)],
      periodKey .weekly e2.date = periodKey .weekly (⟨2024, 1, 8⟩ : Date) →
        Date.le e2.date ⟨2024, 1, 8⟩) :=
  ⟨by decide,
    C1_kept_entry_is_latest_of_period
      [⟨⟨2024, 1, 8⟩, "2024-01-08"⟩, ⟨⟨2024, 1, 5⟩, "2024-01-05"⟩]
      ⟨0, 1, 0, 0⟩ (by decide) (by decide) (by decide) .weekly
      (by simp) ⟨⟨2024, 1, 8⟩, "2024-01-08"⟩ (by simp) 1 (by decide)⟩

/-- C5: if the first entry of a period bucket (in the date-descending
walk) is already kept by an earlier rule, then that period registers as
seen: every subsequent not-yet-kept entry of the same period is skipped
by the rule's pass — it is neither added to the kept set nor given a
reason binding. -/
theorem C5_seen_period_skips_later_entries (items : List Entry) (r : Rule)
    (n : Int) (st : PruneState)
    (hsort : items.Pairwise (fun a b => Date.le b.date a.date))
    (hvalid : ∀ x ∈ items, ValidDate x.date)
    (hnodup : (items.map Entry.name).Nodup)
    (l1 : List Entry) (e : Entry) (l2 : List Entry)
    (hdecomp : items = l1 ++ e :: l2)
    (hfirst : ∀ p ∈ l1, periodKey r p.date ≠ periodKey r e.date)
    (hkept : e.name ∈ st.kept)
    (e2 : Entry) (he2 : e2 ∈ l2)
    (hpk : periodKey r e2.date = periodKey r e.date)
    (hnk : e2.name ∉ st.kept) :
    e2.name ∉ (prune_split items r n st).kept ∧
    List.lookup e2.name (prune_split items r n st).because =
      List.lookup e2.name st.because := by
  have he_items : e ∈ items := by rw [hdecomp]; simp
  have he2_items : e2 ∈ items := by rw [hdecomp]; simp [he2]
  have hve : ValidDate e.date := hvalid e he_items
  have hve2 : ValidDate e2.date := hvalid e2 he2_items
  have hmain : e2.name ∉ (prune_split items r n st).kept := by
    intro hc
    rcases prune_split_site items r n st e2.name hc with hm | hsite
    · exact hnk hm
    obtain ⟨L1, f, L2, hd2, hfn, hc2⟩ := hsite
    obtain ⟨l2a, l2b, hl2⟩ := List.append_of_mem he2
    have hitems2 : items = (l1 ++ e :: l2a) ++ e2 :: l2b := by
      rw [hdecomp, hl2]
      simp [List.append_assoc]
    have hnd : (((l1 ++ e :: l2a) ++ e2 :: l2b).map Entry.name).Nodup := by
      rw [← hitems2]
      exact hnodup
    obtain ⟨hLeq, hfe2, hL2eq⟩ := nodup_unique_split hfn.symm
      (l1 ++ e :: l2a) l2b L1 L2 hnd (hitems2.symm.trans hd2)
    have hsort2 : ((l1 ++ e :: l2a) ++ e2 :: l2b).Pairwise
        (fun a b => Date.le b.date a.date) := by
      rw [← hitems2]
      exact hsort
    obtain ⟨hpA, hpB, hcrossAB⟩ := List.pairwise_append.mp hsort2
    rcases List.eq_nil_or_concat L1 with hnil | ⟨L1', p, hcat⟩
    · rw [hnil] at hLeq
      simp at hLeq
    · have hcat' : L1 = L1' ++ [p] := by
        rw [hcat, List.concat_eq_append]
      have hpne := hc2 L1' p hcat'
      rw [← hfe2] at hpne
      -- p is the last entry before e2: either the first-of-period entry
      -- itself or a later entry of the same period
      have hsplit : l1 ++ e :: l2a = L1' ++ [p] := by
        rw [hLeq, hcat']
      rcases List.eq_nil_or_concat l2a with hA | ⟨l2a', q, hqcat⟩
      · -- l2a = []: the last entry before e2 is e itself
        rw [hA] at hsplit
        have : l1 ++ [e] = L1' ++ [p] := hsplit
        obtain ⟨-, hpe⟩ := List.append_inj' this rfl
        simp only [List.cons.injEq] at hpe
        rw [← hpe.1] at hpne
        exact hpne hpk.symm
      · -- l2a ends in q: q sits between e and e2 in the same period
        have hqcat' : l2a = l2a' ++ [q] := by
          rw [hqcat, List.concat_eq_append]
        have : (l1 ++ e :: l2a') ++ [q] = L1' ++ [p] := by
          rw [← hsplit, hqcat']
          simp [List.append_assoc]
        obtain ⟨-, hpq⟩ := List.append_inj' this rfl
        simp only [List.cons.injEq] at hpq
        have hq_in_l2a : q ∈ l2a := by rw [hqcat']; simp
        have hq_in_A : q ∈ l1 ++ e :: l2a := by
          apply List.mem_append_right
          exact List.mem_cons_of_mem _ hq_in_l2a
        -- dates: e2 <= q <= e
        have hRqe : Date.le q.date e.date := by
          obtain ⟨-, hpe2, -⟩ := List.pairwise_append.mp hpA
          exact (List.pairwise_cons.mp hpe2).1 q hq_in_l2a
        have hRe2q : Date.le e2.date q.date :=
          hcrossAB q hq_in_A e2 (List.mem_cons_self _ _)
        have hvq : ValidDate q.date := by
          apply hvalid q
          rw [hitems2]
          exact List.mem_append_left _ hq_in_A
        have hconv := periodKey_convex hve hvq hve2 hRe2q hRqe hpk.symm
        rw [← hpq.1] at hpne
        exact hpne (hconv.trans hpk.symm)
  refine ⟨hmain, ?_⟩
  obtain ⟨A, q1, -, -, -, -, -⟩ := prune_split_spec items r n st
  have hnotA : e2.name ∉ A.reverse.map Prod.fst := by
    intro hcc
    apply hmain
    rw [q1]
    exact List.mem_append_left _ hcc
  rw [q1]
  exact lookup_append_of_not_mem hnotA

/-- Witness for C5 at a concrete input: three entries of the same ISO
week, the newest already kept by an earlier rule; the weekly pass skips
the second entry entirely. -/
theorem C5_seen_period_skips_later_entries_witness :
    ("2024-01-03" ∈ (⟨["2024-01-03"], []⟩ : PruneState).kept ∧
      "2024-01-02" ∉ (⟨["2024-01-03"], []⟩ : PruneState).kept ∧
      periodKey .weekly (⟨2024, 1, 2⟩ : Date) =
        periodKey .weekly (⟨2024, 1, 3⟩ : Date)) ∧
    ("2024-01-02" ∉ (prune_split
        [⟨⟨2024, 1, 3⟩, "2024-01-03"⟩, ⟨⟨2024, 1, 2⟩, "2024-01-02"⟩,
          ⟨⟨2024, 1, 1⟩, "2024-01-01"⟩] .weekly 1
        ⟨["2024-01-03"], []⟩).kept ∧
      List.lookup "2024-01-02" (prune_split
        [⟨⟨2024, 1, 3⟩, "2024-01-03"⟩, ⟨⟨2024, 1, 2⟩, "2024-01-02"⟩,
          ⟨⟨2024, 1, 1⟩, "2024-01-01"⟩] .weekly 1
        ⟨["2024-01-03"], []⟩).because =
      List.lookup "2024-01-02"
        (⟨["2024-01-03"], []⟩ : PruneState).because) :=
  ⟨⟨by decide, by decide, by decide⟩,
    C5_seen_period_skips_later_entries
      [⟨⟨2024, 1, 3⟩, "2024-01-03"⟩, ⟨⟨2024, 1, 2⟩, "2024-01-02"⟩,
        ⟨⟨2024, 1, 1⟩, "2024-01-01"⟩] .weekly 1 ⟨["2024-01-03"], []⟩
      (by decide) (by decide) (by decide) []
      ⟨⟨2024, 1, 3⟩, "2024-01-03"⟩
      [⟨⟨2024, 1, 2⟩, "2024-01-02"⟩, ⟨⟨2024, 1, 1⟩, "2024-01-01"⟩] rfl
      (by simp) (by decide) ⟨⟨2024, 1, 2⟩, "2024-01-02"⟩ (by simp)
      (by decide) (by decide)⟩

end RtspRecord
